import Mathlib

/-!
# Verification of the go-triangulate specification

The repository ships only its test/example file (`example_test.go`) and a
debug-name utility (`advanced/dbg/readablenames.go`); the triangulation
engine itself (`Triangulate` and its four-stage pipeline) is not part of the
visible sources.  Following the specification, the engine is modelled here
from the spec's own description: exact rational coordinates stand in for
IEEE doubles, and point identity is kept abstract through a type parameter
`P` so that "reference equality" of points is plain equality at `P`.

Stages (spec §2, §4):
1. input normalization (ring checks, winding, grouping),
2. hole merging via bridges,
3. plane-sweep monotone decomposition,
4. stack-based monotone triangulation.
-/

set_option maxRecDepth 40000
set_option linter.unusedSectionVars false
set_option linter.unnecessarySimpa false

namespace GoTriangulate

/-- Abstract interface to a caller-supplied point record: the pipeline may
read the coordinates of a `P` but can neither create nor alter one, which
mirrors the spec's demand that output triangles borrow the caller's `Point`
records (spec §3 "Point", §6 contract). -/
class PointRef (P : Type) where
  px : P → ℚ
  py : P → ℚ

export PointRef (px py)

variable {P : Type} [PointRef P] [DecidableEq P]

/-- Modelled from the spec: signed area of triangle (a, b, c),
½·((b.x−a.x)(c.y−a.y) − (c.x−a.x)(b.y−a.y)) (spec §4.1). -/
def signedArea (a b c : P) : ℚ :=
  ((px b - px a) * (py c - py a) - (px c - px a) * (py b - py a)) / 2

/-- Cross term `x_a·y_b − x_b·y_a` of the shoelace sum. -/
def cross (a b : P) : ℚ := px a * py b - px b * py a

/-- Sum of shoelace cross terms over consecutive pairs of an (open) chain. -/
def chain : List P → ℚ
  | [] => 0
  | [_] => 0
  | a :: b :: t => cross a b + chain (b :: t)

/-- Shoelace sum of a closed ring (twice its signed area). -/
def shoelace : List P → ℚ
  | [] => 0
  | a :: t => chain ((a :: t) ++ [a])

/-- Modelled from the spec: signed area of a ring, positive ⇒ CCW
(spec §3 "Ring", §4.2). -/
def ringArea (l : List P) : ℚ := shoelace l / 2

/-- Modelled from the spec: the degeneracy epsilon for ring areas
(spec §4.2, "a small epsilon (e.g. 1e-12)"). -/
def epsArea : ℚ := 1 / 10 ^ 12

/-- Modelled from the spec: the horizontal sweep comparator, `a` precedes
`b` iff `a.y > b.y`, or `a.y = b.y` and `a.x < b.x` (spec §4.1). -/
def sweepBefore (a b : P) : Bool :=
  decide (py b < py a) || (decide (py a = py b) && decide (px a < px b))

/-- Modelled from the spec: the error surface discriminant (spec §6). -/
inductive TriErr : Type
  | DegenerateRing
  | HoleNotInside
  | DegenerateGeometry
  | InternalInvariant
deriving DecidableEq, Repr

/-- Collapse duplicate adjacent points inside the list (spec §4.2,
"duplicate-adjacent points are collapsed silently"). -/
def collapseAdj : List P → List P
  | a :: b :: t => if a = b then collapseAdj (b :: t) else a :: collapseAdj (b :: t)
  | l => l

/-- Collapse duplicate adjacent points of a ring, including the cyclic
wrap-around pair (last point equal to first). -/
def collapseRing (l : List P) : List P :=
  let l2 := collapseAdj l
  match l2.head?, l2.getLast? with
  | some a, some b => if 2 ≤ l2.length ∧ b = a then l2.dropLast else l2
  | _, _ => l2

/-- Modelled from the spec: a ring is degenerate when it has fewer than 3
points or area of magnitude below `epsArea` (spec §4.2, §6). -/
def ringDegenerate (l : List P) : Bool :=
  decide (l.length < 3) || decide (|ringArea l| < epsArea)

/-- Does the horizontal ray from `p` in the +x direction cross the open
segment (a, b)?  Standard even-odd crossing-count convention. -/
def raySegCross (p a b : P) : Bool :=
  (decide (py p < py a) != decide (py p < py b)) &&
    decide (px p < px a + (py p - py a) * (px b - px a) / (py b - py a))

/-- The consecutive (cyclically closed) edge list of a ring. -/
def ringEdges (l : List P) : List (P × P) := l.zip (l.rotate 1)

/-- Even-odd point-in-ring test by counting ray crossings. -/
def pointInRing (p : P) (l : List P) : Bool :=
  ((ringEdges l).countP (fun e => raySegCross p e.1 e.2)) % 2 == 1

/-- One outer boundary with the holes assigned to it (spec §3
"PolygonInput", §4.2 grouping). -/
structure Group (P : Type) where
  outer : List P
  holes : List (List P)
deriving DecidableEq

/-- First outer ring of the list that contains the first vertex of `h`. -/
def containingOuter (outers : List (List P)) (h : List P) : Option (List P) :=
  match h.head? with
  | none => none
  | some p => outers.find? (fun o => pointInRing p o)

/-- Modelled from the spec: input normalization (spec §4.2).  Every ring is
checked for degeneracy first; the first ring is forced counter-clockwise;
later rings are outer boundaries when counter-clockwise and holes when
clockwise (spec §6: rings are "interpreted as disjoint outer boundaries or
as holes according to their winding", which is how the two-disjoint-squares
test can pass); each hole is assigned to the first outer ring containing
it, and a hole inside no outer ring is `HoleNotInside` (spec §6). -/
def normalize (rings : List (List P)) : Except TriErr (List (Group P)) :=
  if rings.any ringDegenerate then .error .DegenerateRing
  else
    match rings.map collapseRing with
    | [] => .ok []
    | r0 :: rest =>
      let r0c := if ringArea r0 < 0 then r0.reverse else r0
      let outers := r0c :: rest.filter (fun r => decide (0 ≤ ringArea r))
      let holes := rest.filter (fun r => decide (ringArea r < 0))
      if holes.any (fun h => (containingOuter outers h).isNone) then
        .error .HoleNotInside
      else
        .ok (outers.map (fun o =>
          ⟨o, holes.filter (fun h => containingOuter outers h == some o)⟩))

/-- Coordinates of a point record, as a raw pair (used where the bridge
algorithm manipulates a synthesized intersection point, spec §4.3). -/
def pos (p : P) : ℚ × ℚ := (px p, py p)

/-- Twice the signed area of the coordinate triangle (a, b, c). -/
def sArea2 (a b c : ℚ × ℚ) : ℚ :=
  (b.1 - a.1) * (c.2 - a.2) - (c.1 - a.1) * (b.2 - a.2)

/-- Modelled from the spec: inclusive point-in-triangle, all three signed
sub-areas share a sign or are zero (spec §4.1). -/
def inTriangleIncl (a b c q : ℚ × ℚ) : Bool :=
  let s1 := sArea2 a b q
  let s2 := sArea2 b c q
  let s3 := sArea2 c a q
  (decide (0 ≤ s1) && decide (0 ≤ s2) && decide (0 ≤ s3)) ||
    (decide (s1 ≤ 0) && decide (s2 ≤ 0) && decide (s3 ≤ 0))

/-- Zip of three lists, kept as short as the shortest. -/
def zip3 : List α → List β → List γ → List (α × β × γ)
  | a :: as, b :: bs, c :: cs => (a, b, c) :: zip3 as bs cs
  | _, _, _ => []

/-- The cyclic (predecessor, vertex, successor) triples of a list. -/
def cyclicTriples (l : List α) : List (α × α × α) :=
  zip3 (l.rotate (l.length - 1)) l (l.rotate 1)

/-- The larger of two points under the (x, then y) order; used to pick the
hole vertex of maximum x-coordinate, ties broken by maximum y (spec §4.3). -/
def maxXY (p q : P) : P :=
  if px p < px q ∨ (px p = px q ∧ py p < py q) then q else p

/-- Maximum x-coordinate over a ring (0 for an empty ring). -/
def maxX : List P → ℚ
  | [] => 0
  | p :: t => t.foldl (fun m q => max m (px q)) (px p)

/-- Order in which holes are merged: decreasing maximum x (spec §4.3). -/
def holeBefore (h1 h2 : List P) : Prop := maxX h2 ≤ maxX (P := P) h1

instance : DecidableRel (holeBefore (P := P)) := fun h1 h2 => by
  unfold holeBefore; infer_instance

/-- The crossings of the horizontal +x ray from `M` with the edges of the
ring `loop`: for each edge whose span of y-coordinates strictly straddles
(or touches) the ray's height with distinct endpoint heights, the ray hits
it at `ix`; crossings left of `M` are discarded (spec §4.3 step 2). -/
def rayHits (loop : List P) (M : P) : List (ℚ × ((ℕ × P) × (ℕ × P))) :=
  (loop.enum.zip (loop.enum.rotate 1)).filterMap (fun e =>
    let a := e.1.2
    let b := e.2.2
    if py a = py b then none
    else if (py a ≤ py M ∧ py M ≤ py b) ∨ (py b ≤ py M ∧ py M ≤ py a) then
      let ix := px a + (py M - py a) * (px b - px a) / (py b - py a)
      if px M ≤ ix then some (ix, e) else none
    else none)

/-- The hit with the smallest x-coordinate (the closest intersection point
`I` of spec §4.3 step 2); earlier edges win ties. -/
def closestHit (hits : List (ℚ × ((ℕ × P) × (ℕ × P)))) :
    Option (ℚ × ((ℕ × P) × (ℕ × P))) :=
  hits.foldl (fun best h =>
    match best with
    | none => some h
    | some b => if h.1 < b.1 then some h else best) none

/-- Comparison of bridge candidates `c1`, `c2` seen from `M`: smaller
absolute angle from the +x axis first (compared by cross-multiplied
tangents, both candidates lying at `x ≥ M.x`), then smaller distance
(spec §4.3 step 3). -/
def angBetter (M c1 c2 : ℚ × ℚ) : Bool :=
  let d1x := c1.1 - M.1
  let d1y := |c1.2 - M.2|
  let d2x := c2.1 - M.1
  let d2y := |c2.2 - M.2|
  decide (d1y * d2x < d2y * d1x) ||
    (decide (d1y * d2x = d2y * d1x) &&
      decide (d1x * d1x + d1y * d1y < d2x * d2x + d2y * d2y))

/-- Modelled from the spec: bridge-anchor selection (spec §4.3 steps 1-3).
Returns the index in `loop` of the vertex to which the hole vertex `M` is
bridged, or `none` when the ray from `M` never hits the ring. -/
def bridgeAnchor (loop : List P) (M : P) : Option ℕ :=
  match closestHit (rayHits loop M) with
  | none => none
  | some (ix, (ia, a), (ib, b)) =>
    if pos a = (ix, py M) then some ia
    else if pos b = (ix, py M) then some ib
    else
      let pEnd := if px a < px b then (ib, b) else (ia, a)
      let ipt : ℚ × ℚ := (ix, py M)
      let reflex := (cyclicTriples loop.enum).filter (fun t =>
        decide (sArea2 (pos t.1.2) (pos t.2.1.2) (pos t.2.2.2) < 0) &&
          decide (t.2.1.1 ≠ pEnd.1) &&
          inTriangleIncl (pos M) ipt (pos pEnd.2) (pos t.2.1.2))
      match reflex with
      | [] => some pEnd.1
      | r :: rs =>
        some (rs.foldl (fun best t =>
          if angBetter (pos M) (pos t.2.1.2) (pos best.2.1.2) then t else best)
          r).2.1.1

/-- Modelled from the spec: splice one hole into the enclosing loop
(spec §4.3 step 4).  `M` is the hole's rightmost vertex; the combined loop
runs anchor → M → hole (in stored clockwise order) → M' → anchor' → rest of
the loop, where M' and anchor' are duplicate entries sharing the same point
records. -/
def mergeOneHole (loop hole : List P) : Except TriErr (List P) :=
  match hole with
  | [] => .ok loop
  | h0 :: ht =>
    let M := ht.foldl maxXY h0
    let hM := hole.rotate (hole.findIdx (fun q => q == M))
    match bridgeAnchor loop M with
    | none => .error .HoleNotInside
    | some ia =>
      match loop.rotate ia with
      | [] => .error .InternalInvariant
      | a :: oRest => .ok (a :: (hM ++ [M, a]) ++ oRest)

/-- Merge the given holes into the loop one after another, stopping at the
first failure. -/
def mergeAll (loop : List P) : List (List P) → Except TriErr (List P)
  | [] => .ok loop
  | h :: hs =>
    match mergeOneHole loop h with
    | .error e => .error e
    | .ok l2 => mergeAll l2 hs

/-- Modelled from the spec: merge all holes into the outer ring, in order
of decreasing maximum x-coordinate (spec §4.3). -/
def mergeHoles (outer : List P) (holes : List (List P)) :
    Except TriErr (List P) :=
  mergeAll outer (holes.insertionSort holeBefore)

/-- A working vertex: a node identity (its position in the merged loop)
together with the original point record it references (spec §3
"Vertex (working)"). -/
abbrev Vtx (P : Type) := ℕ × P

instance [PointRef P] : PointRef (ℕ × P) where
  px := fun v => px v.2
  py := fun v => py v.2

/-- Total event order: the sweep comparator on coordinates, ties between
coincident duplicates (bridge copies) broken by node identity. -/
def vtxBefore (a b : Vtx P) : Bool :=
  sweepBefore a.2 b.2 ||
    (decide (px a.2 = px b.2) && decide (py a.2 = py b.2) && decide (a.1 < b.1))

/-- Modelled from the spec: the sweep classification tags (spec §3, §4.4).
`stop` is the spec's End class. -/
inductive VClass : Type
  | start | stop | split | merge | regLeft | regRight
deriving DecidableEq, Repr

/-- Modelled from the spec: vertex classification (spec §4.4).  A neighbor
is below when the vertex precedes it in sweep order; the interior angle is
less than π exactly when (pred, v, succ) makes a strict left turn. -/
def classify (t : Vtx P × Vtx P × Vtx P) : VClass :=
  let p := t.1
  let v := t.2.1
  let s := t.2.2
  let pBelow := vtxBefore v p
  let sBelow := vtxBefore v s
  if pBelow && sBelow then
    if 0 < signedArea p.2 v.2 s.2 then .start else .split
  else if !pBelow && !sBelow then
    if 0 < signedArea p.2 v.2 s.2 then .stop else .merge
  else if sBelow then .regRight
  else .regLeft

/-- An edge in the sweep status: its two endpoints, and the helper vertex
with the classification the helper had when it was stored (spec §3
"Edge (working)", §4.4). -/
structure StatEntry (P : Type) where
  ea : Vtx P
  eb : Vtx P
  helper : Vtx P
  hcls : VClass

/-- x-coordinate at which a status edge crosses the sweep line `y = yv`
(left endpoint for a horizontal edge). -/
def xAt (e : StatEntry P) (yv : ℚ) : ℚ :=
  if py e.ea.2 = py e.eb.2 then min (px e.ea.2) (px e.eb.2)
  else
    px e.ea.2 +
      (yv - py e.ea.2) * (px e.eb.2 - px e.ea.2) / (py e.eb.2 - py e.ea.2)

/-- Exact lookup of the status edge with endpoint identities (i, j). -/
def findEdge (st : List (StatEntry P)) (i j : ℕ) : Option (StatEntry P) :=
  st.find? (fun e => e.ea.1 == i && e.eb.1 == j)

/-- Remove the status edge with endpoint identities (i, j). -/
def removeEdge (st : List (StatEntry P)) (i j : ℕ) : List (StatEntry P) :=
  st.filter (fun e => !(e.ea.1 == i && e.eb.1 == j))

/-- Modelled from the spec: the status edge immediately left of vertex `v`,
i.e. the one of maximal sweep-line crossing x among those crossing strictly
left of `v` (spec §3 "Sweep status structure"; strictness keeps an edge
ending in a coincident bridge duplicate of `v` from shadowing the true left
edge). -/
def edgeLeft (st : List (StatEntry P)) (v : Vtx P) : Option (StatEntry P) :=
  st.foldl (fun best e =>
    if xAt e (py v.2) < px v.2 then
      match best with
      | none => some e
      | some b => if xAt b (py v.2) < xAt e (py v.2) then some e else best
    else best) none

/-- Replace the helper (and its stored classification) on the status edge
with endpoint identities (i, j). -/
def setHelper (st : List (StatEntry P)) (i j : ℕ) (h : Vtx P) (hc : VClass) :
    List (StatEntry P) :=
  st.map (fun e =>
    if e.ea.1 == i && e.eb.1 == j then ⟨e.ea, e.eb, h, hc⟩ else e)

/-- Mutable state of the sweep: the status structure and the diagonals
added so far (spec §4.4). -/
structure SweepState (P : Type) where
  status : List (StatEntry P)
  diags : List (Vtx P × Vtx P)

/-- The diagonal demanded when a consulted edge's helper is a Merge vertex
(spec §4.4 action table). -/
def diagTo (v : Vtx P) (e : StatEntry P) : List (Vtx P × Vtx P) :=
  if e.hcls = .merge then [(v, e.helper)] else []

/-- Modelled from the spec: the sweep action at one event vertex
(spec §4.4 action table). -/
def sweepStep (st : SweepState P) (t : Vtx P × Vtx P × Vtx P) : SweepState P :=
  let p := t.1
  let v := t.2.1
  let s := t.2.2
  match classify t with
  | .start => ⟨st.status ++ [⟨v, s, v, .start⟩], st.diags⟩
  | .stop =>
    let d := match findEdge st.status p.1 v.1 with
             | some e => diagTo v e
             | none => []
    ⟨removeEdge st.status p.1 v.1, st.diags ++ d⟩
  | .split =>
    match edgeLeft st.status v with
    | some e =>
      ⟨setHelper st.status e.ea.1 e.eb.1 v .split ++ [⟨v, s, v, .split⟩],
       st.diags ++ [(v, e.helper)]⟩
    | none => ⟨st.status ++ [⟨v, s, v, .split⟩], st.diags⟩
  | .merge =>
    let d1 := match findEdge st.status p.1 v.1 with
              | some e => diagTo v e
              | none => []
    let st1 := removeEdge st.status p.1 v.1
    match edgeLeft st1 v with
    | some e =>
      ⟨setHelper st1 e.ea.1 e.eb.1 v .merge, st.diags ++ d1 ++ diagTo v e⟩
    | none => ⟨st1, st.diags ++ d1⟩
  | .regRight =>
    let d := match findEdge st.status p.1 v.1 with
             | some e => diagTo v e
             | none => []
    ⟨removeEdge st.status p.1 v.1 ++ [⟨v, s, v, .regRight⟩], st.diags ++ d⟩
  | .regLeft =>
    match edgeLeft st.status v with
    | some e => ⟨setHelper st.status e.ea.1 e.eb.1 v .regLeft,
                 st.diags ++ diagTo v e⟩
    | none => st

/-- Modelled from the spec: the full plane sweep over the loop's vertices
in sweep order; its result is the list of added diagonals (spec §4.4). -/
def sweepDiags (e : List (Vtx P)) : List (Vtx P × Vtx P) :=
  let evs := (cyclicTriples e).insertionSort
    (fun t1 t2 => vtxBefore t1.2.1 t2.2.1 = true)
  (evs.foldl sweepStep ⟨[], []⟩).diags

/-- A directed half-edge between two working vertices. -/
abbrev HEdge (P : Type) := Vtx P × Vtx P

/-- The diagonal endpoints paired with node `v` (each recorded diagonal is
undirected, spec §4.4). -/
def diagPartners (diags : List (Vtx P × Vtx P)) (v : Vtx P) : List (Vtx P) :=
  diags.filterMap (fun d =>
    if d.1.1 == v.1 then some d.2
    else if d.2.1 == v.1 then some d.1 else none)

/-- Which angular half-plane (seen from `v`) the direction to `d` lies in:
0 for angles in [0, π), 1 for [π, 2π). -/
def halfOf (v d : ℚ × ℚ) : ℕ :=
  if 0 < d.2 - v.2 ∨ (d.2 - v.2 = 0 ∧ 0 < d.1 - v.1) then 0 else 1

/-- Strict polar-angle order around `v` (counter-clockwise from the +x
axis), decided by half-plane then cross product (spec §4.4
"sorted by polar angle"). -/
def angLtB (v d1 d2 : ℚ × ℚ) : Bool :=
  decide (halfOf v d1 < halfOf v d2) ||
    (decide (halfOf v d1 = halfOf v d2) &&
      decide (0 < (d1.1 - v.1) * (d2.2 - v.2) - (d2.1 - v.1) * (d1.2 - v.2)))

/-- Neighbors of a vertex sorted by polar angle around it. -/
def sortAng (v : ℚ × ℚ) (l : List (Vtx P)) : List (Vtx P) :=
  l.insertionSort (fun a b => angLtB v (pos a.2) (pos b.2) = true)

/-- Modelled from the spec: the adjacency of the planar subdivision — for
each working vertex (indexed by node identity), its neighbors along loop
edges and diagonals, sorted by polar angle (spec §4.4 "Face extraction"). -/
def buildAdj (e : List (Vtx P)) (diags : List (Vtx P × Vtx P)) :
    List (List (Vtx P)) :=
  (cyclicTriples e).map (fun t =>
    sortAng (pos t.2.1.2) ([t.2.2, t.1] ++ diagPartners diags t.2.1))

/-- The half-edge following `he` in its face: the next-counter-clockwise
outgoing half-edge around the destination (spec §4.4 "Face extraction"). -/
def nextHE (adj : List (List (Vtx P))) (he : HEdge P) : Option (HEdge P) :=
  match adj.get? he.2.1 with
  | none => none
  | some out =>
    match out.findIdx? (fun t => t.1 == he.1.1) with
    | none => none
    | some i =>
      match out.get? ((i + out.length - 1) % out.length) with
      | none => none
      | some t => some (he.2, t)

/-- Follow half-edges from `cur` until the walk closes at `start` (fuel
bounds the number of steps; the subdivision has finitely many
half-edges). -/
def walkFace (adj : List (List (Vtx P))) (start : HEdge P) :
    ℕ → HEdge P → List (HEdge P)
  | 0, cur => [cur]
  | fuel + 1, cur =>
    match nextHE adj cur with
    | none => [cur]
    | some nxt =>
      if nxt = start then [cur] else cur :: walkFace adj start fuel nxt

/-- Identity key of a half-edge (pair of node identities). -/
def heKey (he : HEdge P) : ℕ × ℕ := (he.1.1, he.2.1)

/-- Repeatedly pick an unused half-edge and walk its face (spec §4.4
"Face extraction"). -/
def facesGo (adj : List (List (Vtx P))) (fuel : ℕ) :
    List (ℕ × ℕ) → List (HEdge P) → List (List (Vtx P))
  | _, [] => []
  | used, h :: rest =>
    if heKey h ∈ used then facesGo adj fuel used rest
    else
      let hes := walkFace adj h fuel h
      (hes.map (fun q => q.1)) :: facesGo adj fuel (used ++ hes.map heKey) rest

/-- Modelled from the spec: extract the faces of the loop plus diagonals,
discarding the outer infinite face by its negative signed area
(spec §4.4 "Face extraction"). -/
def extractFaces (e : List (Vtx P)) (diags : List (Vtx P × Vtx P)) :
    List (List (Vtx P)) :=
  let adj := buildAdj e diags
  let hes := (cyclicTriples e).map (fun t => (t.2.1, t.2.2)) ++
    (cyclicTriples e).map (fun t => (t.2.1, t.1)) ++
    diags.flatMap (fun d => [(d.1, d.2), (d.2, d.1)])
  (facesGo adj (hes.length + 1) [] hes).filter (fun f => decide (0 < shoelace f))

/-- An output triangle: three caller point records (spec §3
"Triangle (output)"). -/
structure Tri (P : Type) where
  a : P
  b : P
  c : P
deriving DecidableEq

/-- Modelled from the spec: re-order an emitted triangle to CCW by checking
the sign of its signed area and swapping two vertices if negative
(spec §4.5). -/
def mkCCW (a b c : P) : Tri P :=
  if signedArea a b c < 0 then ⟨a, c, b⟩ else ⟨a, b, c⟩

/-- A chain-tagged vertex of a monotone piece: `right = true` on the right
chain (spec §4.5 step 1). -/
structure TV (P : Type) where
  v : Vtx P
  right : Bool

/-- Merge the two monotone chains into one sequence in sweep order
(spec §4.5 step 1); fuel keeps the recursion structural. -/
def mergeTV : ℕ → List (TV P) → List (TV P) → List (TV P)
  | 0, a, b => a ++ b
  | _ + 1, [], b => b
  | _ + 1, a :: as, [] => a :: as
  | fuel + 1, a :: as, b :: bs =>
    if vtxBefore a.v b.v then a :: mergeTV fuel as (b :: bs)
    else b :: mergeTV fuel (a :: as) bs

/-- Index of the sweep-first (topmost) vertex of a face. -/
def topIdx (f : List (Vtx P)) : ℕ :=
  (f.enum.foldl (fun best q =>
    match best with
    | none => some q
    | some b => if vtxBefore q.2 b.2 then some q else best) none).elim 0
    (fun q => q.1)

/-- Index of the sweep-last (bottommost) vertex of a face. -/
def botIdx (f : List (Vtx P)) : ℕ :=
  (f.enum.foldl (fun best q =>
    match best with
    | none => some q
    | some b => if vtxBefore b.2 q.2 then some q else best) none).elim 0
    (fun q => q.1)

/-- Modelled from the spec: split a monotone face at its top and bottom
vertices into left and right chains and merge them in sweep order, tagging
each vertex with its chain (spec §4.5 step 1).  Walking the CCW boundary
forward from the top descends the left chain. -/
def chainsOf (f : List (Vtx P)) : List (TV P) :=
  let r := f.rotate (topIdx f)
  let bi := botIdx r
  let leftc := (r.take (bi + 1)).map (fun v => TV.mk v false)
  let rightc := ((r.drop (bi + 1)).reverse).map (fun v => TV.mk v true)
  mergeTV (f.length + 1) leftc rightc

/-- Triangles formed by consecutive pairs of the popped stack together with
the current vertex (spec §4.5 steps 3-4). -/
def emitAll (v : Vtx P) : List (Vtx P) → List (Tri P)
  | a :: b :: t => mkCCW a.2 b.2 v.2 :: emitAll v (b :: t)
  | _ => []

/-- Same-chain popping: pop while the triangle (popped, new-top, v) turns
inward — CCW when `v` is on the right chain, CW on the left — emitting each
such triangle (spec §4.5 step 3). -/
def popSame (v : Vtx P) (right : Bool) :
    TV P → List (TV P) → List (Tri P) × TV P × List (TV P)
  | u, [] => ([], u, [])
  | u, w :: t =>
    let turn := if right then decide (0 < signedArea u.v.2 w.v.2 v.2)
                else decide (signedArea u.v.2 w.v.2 v.2 < 0)
    if turn then
      let r := popSame v right w t
      (mkCCW u.v.2 w.v.2 v.2 :: r.1, r.2)
    else ([], u, w :: t)

/-- Modelled from the spec: one step of the stack scan (spec §4.5 step 3).
Opposite chain: pop everything, emit the fan, push previous top and `v`.
Same chain: pop the top, keep popping while the triangle turns inward,
push the last popped vertex and `v`. -/
def stackStep (stack : List (TV P)) (acc : List (Tri P)) (v : TV P) :
    List (TV P) × List (Tri P) :=
  match stack with
  | [] => ([v], acc)
  | top :: rest =>
    if v.right != top.right then
      ([v, top], acc ++ emitAll v.v (stack.map (fun q => q.v)))
    else
      let r := popSame v.v v.right top rest
      (v :: r.2.1 :: r.2.2, acc ++ r.1)

/-- Modelled from the spec: the stack scan over the merged chain sequence;
the last vertex closes the polygon by a fan over the remaining stack
(spec §4.5 steps 2-4). -/
def runStack (stack : List (TV P)) (acc : List (Tri P)) :
    List (TV P) → List (Tri P)
  | [] => acc
  | [last] => acc ++ emitAll last.v (stack.map (fun q => q.v))
  | v :: w :: t =>
    let r := stackStep stack acc v
    runStack r.1 r.2 (w :: t)

/-- Modelled from the spec: triangulate one y-monotone face (spec §4.5). -/
def triangulateMonotone (f : List (Vtx P)) : List (Tri P) :=
  match chainsOf f with
  | a :: b :: t => runStack [b, a] [] t
  | _ => []

/-- Modelled from the spec: triangulate one merged simple loop — sweep for
diagonals, extract monotone faces, triangulate each (spec §2 stages 3-4). -/
def triangulateLoop (loop : List P) : List (Tri P) :=
  let e := loop.enum
  (extractFaces e (sweepDiags e)).flatMap triangulateMonotone

/-- Modelled from the spec: process one outer-with-holes group
independently (spec §4.2-§4.5). -/
def triangulateGroup (g : Group P) : Except TriErr (List (Tri P)) :=
  (mergeHoles g.outer g.holes).map triangulateLoop

/-- Process the groups in order, stopping at the first error; on success
the per-group triangle lists are concatenated (spec §4.2). -/
def collectGroups : List (Group P) → Except TriErr (List (Tri P))
  | [] => .ok []
  | g :: gs =>
    match triangulateGroup g with
    | .error e => .error e
    | .ok ts =>
      match collectGroups gs with
      | .error e => .error e
      | .ok rest => .ok (ts ++ rest)

/-- Modelled from the spec: the public entry point.  Mirrors the Go
signature by returning both the triangle list and an optional error; on any
failure the triangle list is empty (spec §6, §7). -/
def Triangulate (rings : List (List P)) : List (Tri P) × Option TriErr :=
  match normalize rings with
  | .error err => ([], some err)
  | .ok groups =>
    match collectGroups groups with
    | .error err => ([], some err)
    | .ok ts => (ts, none)

/-- Signed area of an output triangle. -/
def triArea (t : Tri P) : ℚ := signedArea t.a t.b t.c

/-- Sum of the absolute triangle areas (the test helper
`calculateTotalArea`, src/example_test.go lines 212-218). -/
def totalAbsArea (ts : List (Tri P)) : ℚ :=
  (ts.map (fun t => |triArea t|)).sum

/-- A concrete identity-bearing point record: a caller-chosen identity plus
coordinates, standing for a Go `*Point` (distinct records may share
coordinates). -/
structure Pt where
  uid : ℕ
  cx : ℚ
  cy : ℚ
deriving DecidableEq, Repr

instance : PointRef Pt where
  px := Pt.cx
  py := Pt.cy

/-- Strict convexity of a CCW ring: every cyclic triple of consecutive
vertices makes a strict left turn. -/
def convexCCW (l : List P) : Prop :=
  ∀ t ∈ cyclicTriples l, 0 < signedArea t.1 t.2.1 t.2.2

instance (l : List P) : Decidable (convexCCW l) := by
  unfold convexCCW; infer_instance

/-- The outer square of the spec's "square with square hole" scenario
(src/example_test.go lines 84-110). -/
def c7outer : List Pt := [⟨0, 0, 0⟩, ⟨1, 4, 0⟩, ⟨2, 4, 4⟩, ⟨3, 0, 4⟩]

/-- The clockwise hole of the "square with square hole" scenario. -/
def c7hole : List Pt :=
  [⟨4, 3/2, 3/2⟩, ⟨5, 3/2, 5/2⟩, ⟨6, 5/2, 5/2⟩, ⟨7, 5/2, 3/2⟩]

/-- First unit square of the "two disjoint unit squares" scenario
(src/example_test.go lines 112-139). -/
def c8sq1 : List Pt := [⟨0, 0, 0⟩, ⟨1, 1, 0⟩, ⟨2, 1, 1⟩, ⟨3, 0, 1⟩]

/-- Second unit square of the "two disjoint unit squares" scenario. -/
def c8sq2 : List Pt := [⟨4, 3, 0⟩, ⟨5, 4, 0⟩, ⟨6, 4, 1⟩, ⟨7, 3, 1⟩]

/-- The unit square of the concurrency test (src/example_test.go lines
172-201). -/
def c9square : List Pt := [⟨0, 0, 0⟩, ⟨1, 1, 0⟩, ⟨2, 1, 1⟩, ⟨3, 0, 1⟩]

/-- A strictly convex triangle whose area (5·10⁻¹³) is below the 10⁻¹²
degeneracy epsilon. -/
def tinyTri : List Pt := [⟨0, 0, 0⟩, ⟨1, 1 / 10 ^ 6, 0⟩, ⟨2, 0, 1 / 10 ^ 6⟩]

/-- A one-point ring, rejected as degenerate. -/
def badRing : List Pt := [⟨0, 0, 0⟩]

/-- The triangles the model returns for the unit square `c9square`. -/
def c9out : List (Tri Pt) :=
  [⟨⟨2, 1, 1⟩, ⟨3, 0, 1⟩, ⟨0, 0, 0⟩⟩, ⟨⟨0, 0, 0⟩, ⟨1, 1, 0⟩, ⟨2, 1, 1⟩⟩]

end GoTriangulate

namespace Dbg

/-- An interface value passed to `dbg.Name` (readablenames.go): it either
holds a nil pointer or a non-nil object identity.  Distinct identities are
distinct map keys, equal identities are the same key, mirroring Go map
semantics on interface keys. -/
structure Obj where
  isNil : Bool
  ident : ℕ
deriving DecidableEq

/-- The process-wide state of the dbg package: the `memo` map (as an
association list, insertion order irrelevant to lookups) and the number of
names generated so far, which indexes the petname generator stream. -/
structure DbgState where
  memo : List (Obj × String)
  generated : ℕ

/-- Lookup of an object in the memo map (readablenames.go line 34/43,
`memo[obj]`). -/
def memoLookup (obj : Obj) (m : List (Obj × String)) : Option String :=
  match m.find? (fun e => e.1 == obj) with
  | some e => some e.2
  | none => none

/-- The `Name` function of readablenames.go (lines 28-49): nil objects
yield "Ø"; otherwise the memoized name is returned when present, and a
fresh name drawn from the (nondeterministic, modelled as an arbitrary
stream `gen`) petname generator is memoized and returned when absent. -/
def Name (gen : ℕ → String) (obj : Obj) (s : DbgState) : String × DbgState :=
  if obj.isNil then ("Ø", s)
  else
    match memoLookup obj s.memo with
    | some r => (r, s)
    | none =>
      let r := gen s.generated
      (r, ⟨s.memo ++ [(obj, r)], s.generated + 1⟩)

/-- The state after a sequence of further `Name` calls on arbitrary
objects. -/
def runCalls (gen : ℕ → String) (objs : List Obj) (s : DbgState) : DbgState :=
  objs.foldl (fun st o => (Name gen o st).2) s

end Dbg

namespace GoTriangulate

variable {P : Type} [PointRef P] [DecidableEq P]


theorem mergeOneHole_error_kind {loop hole : List P} {e : TriErr}
    (h : mergeOneHole loop hole = .error e) :
    e = TriErr.HoleNotInside ∨ e = TriErr.InternalInvariant := by
  cases hole with
  | nil => simp [mergeOneHole] at h
  | cons h0 ht =>
    unfold mergeOneHole at h
    simp only [] at h
    cases hb : bridgeAnchor loop (ht.foldl maxXY h0) with
    | none =>
      rw [hb] at h
      simp only [Except.error.injEq] at h
      exact Or.inl h.symm
    | some ia =>
      rw [hb] at h
      simp only [] at h
      cases hr : loop.rotate ia with
      | nil =>
        rw [hr] at h
        simp only [Except.error.injEq] at h
        exact Or.inr h.symm
      | cons a oRest => rw [hr] at h; simp at h

theorem mergeAll_error_kind :
    ∀ (hs : List (List P)) (loop : List P) (e : TriErr),
      mergeAll loop hs = .error e →
      e = TriErr.HoleNotInside ∨ e = TriErr.InternalInvariant := by
  intro hs
  induction hs with
  | nil => intro loop e h; exact absurd h (by simp [mergeAll])
  | cons h t ih =>
    intro loop e hh
    unfold mergeAll at hh
    split at hh
    · next heq =>
      cases hh
      exact mergeOneHole_error_kind heq
    · next l2 heq => exact ih l2 e hh

theorem triangulateGroup_error_kind {g : Group P} {e : TriErr}
    (h : triangulateGroup g = .error e) :
    e = TriErr.HoleNotInside ∨ e = TriErr.InternalInvariant := by
  unfold triangulateGroup mergeHoles at h
  cases hm : mergeAll g.outer (g.holes.insertionSort holeBefore) with
  | error e2 =>
    rw [hm] at h
    simp only [Except.map, Except.error.injEq] at h
    exact h ▸ mergeAll_error_kind _ _ _ hm
  | ok l => rw [hm] at h; simp [Except.map] at h

theorem collectGroups_error_kind :
    ∀ (gs : List (Group P)) (e : TriErr),
      collectGroups gs = .error e →
      e = TriErr.HoleNotInside ∨ e = TriErr.InternalInvariant := by
  intro gs
  induction gs with
  | nil => intro e h; exact absurd h (by simp [collectGroups])
  | cons g t ih =>
    intro e h
    unfold collectGroups at h
    split at h
    · next heq => cases h; exact triangulateGroup_error_kind heq
    · next ts heq =>
      split at h
      · next heq2 => cases h; exact ih _ heq2
      · exact absurd h (by simp)

omit [DecidableEq P] in
theorem ringDegenerate_iff (r : List P) :
    ringDegenerate r = true ↔ r.length < 3 ∨ |ringArea r| < epsArea := by
  simp [ringDegenerate]

theorem normalize_not_degenerate {rings : List (List P)}
    (hany : rings.any ringDegenerate = false) :
    normalize rings ≠ .error TriErr.DegenerateRing := by
  unfold normalize
  rw [hany]
  simp only [Bool.false_eq_true, if_false]
  split
  · simp
  · split
    · split <;> simp
    · split <;> simp

/-- **C5.** `Triangulate` fails with `DegenerateRing` if and only if some
input ring has fewer than 3 points or absolute signed area below the
`1e-12` epsilon. -/
theorem triangulate_degenerateRing_iff (rings : List (List P)) :
    (Triangulate rings).2 = some TriErr.DegenerateRing ↔
      ∃ r ∈ rings, r.length < 3 ∨ |ringArea r| < epsArea := by
  constructor
  · intro h
    by_contra hno
    have hany : rings.any ringDegenerate = false := by
      rw [List.any_eq_false]
      intro r hr hdeg
      exact hno ⟨r, hr, (ringDegenerate_iff r).mp hdeg⟩
    unfold Triangulate at h
    cases hn : normalize rings with
    | error e2 =>
      rw [hn] at h
      simp only [Option.some.injEq] at h
      exact normalize_not_degenerate hany (h ▸ hn)
    | ok gs =>
      rw [hn] at h
      simp only [] at h
      cases hc : collectGroups gs with
      | error e2 =>
        rw [hc] at h
        simp only [Option.some.injEq] at h
        rcases collectGroups_error_kind gs e2 hc with h2 | h2 <;>
          rw [h2] at h <;> exact absurd h (by simp)
      | ok ts => rw [hc] at h; simp at h
  · intro hex
    obtain ⟨r, hr, hcond⟩ := hex
    have hany : rings.any ringDegenerate = true :=
      List.any_eq_true.mpr ⟨r, hr, (ringDegenerate_iff r).mpr hcond⟩
    unfold Triangulate normalize
    rw [hany]
    simp

/-- **C6.** Whenever `Triangulate` returns an error of any kind, the
returned triangle list is empty: no partial results accompany an error. -/
theorem triangulate_error_empty (rings : List (List P)) (e : TriErr)
    (h : (Triangulate rings).2 = some e) : (Triangulate rings).1 = [] := by
  unfold Triangulate at h ⊢
  cases hn : normalize rings with
  | error e2 => simp
  | ok gs =>
    rw [hn] at h
    simp only [] at h ⊢
    cases hc : collectGroups gs with
    | error e2 => simp
    | ok ts => rw [hc] at h; simp at h

/-- Witness for C6 at a concrete failing input (a one-point ring). -/
theorem triangulate_error_empty_witness : (Triangulate [badRing]).1 = [] :=
  triangulate_error_empty [badRing] TriErr.DegenerateRing
    (by with_unfolding_all decide)

/-- **C9.** `Triangulate` is a pure function of its input (the spec's §5
concurrency model: no process-wide mutable state), so two invocations on
the same input agree on success and on total absolute area. -/
theorem triangulate_deterministic (rings : List (List P))
    (ts1 ts2 : List (Tri P)) (e1 e2 : Option TriErr)
    (h1 : Triangulate rings = (ts1, e1)) (h2 : Triangulate rings = (ts2, e2)) :
    (e1 = none ↔ e2 = none) ∧ totalAbsArea ts1 = totalAbsArea ts2 := by
  rw [h1] at h2
  obtain ⟨hts, he⟩ := Prod.mk.injEq .. ▸ h2
  subst hts
  subst he
  exact ⟨Iff.rfl, rfl⟩

/-- Witness for C9 at the concurrency test's unit square. -/
theorem triangulate_deterministic_witness :
    ((none : Option TriErr) = none ↔ (none : Option TriErr) = none) ∧
      totalAbsArea c9out = totalAbsArea c9out :=
  triangulate_deterministic [c9square] c9out c9out none none
    (by with_unfolding_all decide) (by with_unfolding_all decide)

/-- **C7.** The "square with square hole" scenario succeeds, yields at
least 5 triangles, and its total absolute area is 15 to within 1e-7. -/
theorem triangulate_hole_scenario :
    (Triangulate [c7outer, c7hole]).2 = none ∧
      5 ≤ (Triangulate [c7outer, c7hole]).1.length ∧
      |totalAbsArea (Triangulate [c7outer, c7hole]).1 - 15| ≤ 1 / 10 ^ 7 := by
  with_unfolding_all decide

/-- **C8.** Two disjoint unit squares in one call: both are processed as
independent outer boundaries, the results are concatenated, and the output
is exactly 4 triangles of total area 2. -/
theorem triangulate_two_squares :
    (Triangulate [c8sq1, c8sq2]).2 = none ∧
      (Triangulate [c8sq1, c8sq2]).1.length = 4 ∧
      totalAbsArea (Triangulate [c8sq1, c8sq2]).1 = 2 ∧
      (Triangulate [c8sq1, c8sq2]).1 =
        (Triangulate [c8sq1]).1 ++ (Triangulate [c8sq2]).1 := by
  with_unfolding_all decide

end GoTriangulate

namespace Dbg

theorem memoLookup_name_preserved (gen : ℕ → String) (o : Obj) (st : DbgState)
    (k : Obj) (r : String) (h : memoLookup k st.memo = some r) :
    memoLookup k (Name gen o st).2.memo = some r := by
  unfold Name
  split
  · exact h
  · split
    · exact h
    · unfold memoLookup at h ⊢
      cases hf : st.memo.find? (fun e => e.1 == k) with
      | none => rw [hf] at h; simp at h
      | some e =>
        rw [hf] at h
        simp only [Option.some.injEq] at h
        simp only [List.find?_append, hf, Option.some_orElse]
        simp [h]

theorem memoLookup_runCalls_preserved (gen : ℕ → String) (objs : List Obj) :
    ∀ (st : DbgState) (k : Obj) (r : String),
      memoLookup k st.memo = some r →
      memoLookup k (runCalls gen objs st).memo = some r := by
  induction objs with
  | nil => intro st k r h; exact h
  | cons o t ih =>
    intro st k r h
    have : runCalls gen (o :: t) st = runCalls gen t (Name gen o st).2 := by
      simp [runCalls]
    rw [this]
    exact ih _ k r (memoLookup_name_preserved gen o st k r h)

theorem name_memoizes (gen : ℕ → String) (o : Obj) (s : DbgState)
    (h : o.isNil = false) :
    memoLookup o (Name gen o s).2.memo = some (Name gen o s).1 := by
  unfold Name
  rw [h]
  simp only [Bool.false_eq_true, if_false]
  cases hm : memoLookup o s.memo with
  | some r => simp [hm]
  | none =>
    simp only []
    unfold memoLookup at hm ⊢
    cases hf : s.memo.find? (fun e => e.1 == o) with
    | some e => rw [hf] at hm; simp at hm
    | none => simp [List.find?_append, hf]

/-- **C10.** `dbg.Name` is memoized per object: after the first call on a
non-nil object, every later call (with arbitrary intervening calls on other
objects) returns the string the first call returned; a nil-valued object
always yields "Ø" (readablenames.go lines 28-49). -/
theorem name_memoized_and_nil :
    (∀ (gen : ℕ → String) (obj : Obj) (s : DbgState) (others : List Obj),
        obj.isNil = false →
        (Name gen obj (runCalls gen others (Name gen obj s).2)).1
          = (Name gen obj s).1) ∧
      (∀ (gen : ℕ → String) (obj : Obj) (s : DbgState),
        obj.isNil = true → (Name gen obj s).1 = "Ø") := by
  constructor
  · intro gen obj s others h
    have h1 := name_memoizes gen obj s h
    have h2 := memoLookup_runCalls_preserved gen others _ obj _ h1
    generalize hst : runCalls gen others (Name gen obj s).2 = st2 at h2
    conv_lhs => unfold Name
    rw [h]
    simp only [Bool.false_eq_true, if_false, h2]
  · intro gen obj s h
    simp [Name, h]

/-- Witness for C10 at a concrete generator, objects and state. -/
theorem name_memoized_and_nil_witness :
    (Name (fun _ => "w") ⟨false, 0⟩
        (runCalls (fun _ => "w") [⟨false, 1⟩]
          (Name (fun _ => "w") ⟨false, 0⟩ ⟨[], 0⟩).2)).1
      = (Name (fun _ => "w") ⟨false, 0⟩ ⟨[], 0⟩).1 ∧
      (Name (fun _ => "w") ⟨true, 2⟩ ⟨[], 0⟩).1 = "Ø" :=
  ⟨name_memoized_and_nil.1 (fun _ => "w") ⟨false, 0⟩ ⟨[], 0⟩ [⟨false, 1⟩] rfl,
   name_memoized_and_nil.2 (fun _ => "w") ⟨true, 2⟩ ⟨[], 0⟩ rfl⟩

end Dbg

namespace GoTriangulate

variable {P : Type} [PointRef P] [DecidableEq P]

omit [DecidableEq P] in
theorem zip3_mem {a : List α} {b : List β} {c : List γ} {t : α × β × γ} :
    t ∈ zip3 a b c → t.1 ∈ a ∧ t.2.1 ∈ b ∧ t.2.2 ∈ c := by
  induction a generalizing b c with
  | nil => intro h; simp [zip3] at h
  | cons x xs ih =>
    intro h
    cases b with
    | nil => simp [zip3] at h
    | cons y ys =>
      cases c with
      | nil => simp [zip3] at h
      | cons z zs =>
        rw [zip3] at h
        rcases List.mem_cons.mp h with rfl | h2
        · exact ⟨List.mem_cons_self .., List.mem_cons_self .., List.mem_cons_self ..⟩
        · obtain ⟨h1, h2, h3⟩ := ih h2
          exact ⟨List.mem_cons_of_mem _ h1, List.mem_cons_of_mem _ h2,
            List.mem_cons_of_mem _ h3⟩

omit [DecidableEq P] in
theorem cyclicTriples_mem {l : List α} {t : α × α × α} (h : t ∈ cyclicTriples l) :
    t.1 ∈ l ∧ t.2.1 ∈ l ∧ t.2.2 ∈ l := by
  obtain ⟨h1, h2, h3⟩ := zip3_mem h
  exact ⟨(List.mem_rotate).mp h1, h2, (List.mem_rotate).mp h3⟩

omit [PointRef P] in
theorem mem_of_mem_collapseAdj {l : List P} {x : P} (h : x ∈ collapseAdj l) :
    x ∈ l := by
  induction l with
  | nil => simpa [collapseAdj] using h
  | cons a t ih =>
    cases t with
    | nil => simpa [collapseAdj] using h
    | cons b t2 =>
      rw [collapseAdj] at h
      split at h
      · exact List.mem_cons_of_mem _ (ih h)
      · rcases List.mem_cons.mp h with rfl | h2
        · exact List.mem_cons_self ..
        · exact List.mem_cons_of_mem _ (ih h2)

theorem mem_of_mem_collapseRing {l : List P} {x : P} (h : x ∈ collapseRing l) :
    x ∈ l := by
  unfold collapseRing at h
  simp only [] at h
  split at h
  · split at h
    · exact mem_of_mem_collapseAdj (List.dropLast_subset _ h)
    · exact mem_of_mem_collapseAdj h
  · exact mem_of_mem_collapseAdj h

omit [DecidableEq P] in
theorem maxXY_choice (p q : P) : maxXY p q = p ∨ maxXY p q = q := by
  unfold maxXY; split
  · exact Or.inr rfl
  · exact Or.inl rfl

omit [DecidableEq P] in
theorem foldl_maxXY_mem (ht : List P) : ∀ h0 : P, ht.foldl maxXY h0 ∈ h0 :: ht := by
  induction ht with
  | nil => intro h0; simp
  | cons q t ih =>
    intro h0
    have h := ih (maxXY h0 q)
    rcases maxXY_choice h0 q with he | he <;> rw [he] at h <;>
      simp only [List.foldl_cons, he] <;>
      rcases List.mem_cons.mp h with h2 | h2 <;> simp [h2]

theorem mergeOneHole_mem {loop hole l2 : List P}
    (h : mergeOneHole loop hole = .ok l2) {x : P} (hx : x ∈ l2) :
    x ∈ loop ∨ x ∈ hole := by
  cases hole with
  | nil => rw [mergeOneHole] at h; cases h; exact Or.inl hx
  | cons h0 ht =>
    unfold mergeOneHole at h
    simp only [] at h
    cases hb : bridgeAnchor loop (ht.foldl maxXY h0) with
    | none => rw [hb] at h; simp at h
    | some ia =>
      rw [hb] at h
      simp only [] at h
      cases hr : loop.rotate ia with
      | nil => rw [hr] at h; simp at h
      | cons a oRest =>
        rw [hr] at h
        simp only [Except.ok.injEq] at h
        subst h
        have ha : a ∈ loop := List.mem_rotate.mp (hr ▸ List.mem_cons_self ..)
        have hor : ∀ y ∈ oRest, y ∈ loop := by
          intro y hy
          exact List.mem_rotate.mp (hr ▸ List.mem_cons_of_mem _ hy)
        rcases List.mem_cons.mp hx with rfl | hx2
        · exact Or.inl ha
        · rcases List.mem_append.mp hx2 with hx3 | hx3
          · rcases List.mem_append.mp hx3 with hx4 | hx4
            · exact Or.inr (List.mem_rotate.mp hx4)
            · rcases List.mem_cons.mp hx4 with rfl | hx5
              · exact Or.inr (foldl_maxXY_mem ht h0)
              · rcases List.mem_cons.mp hx5 with rfl | hx6
                · exact Or.inl ha
                · simp at hx6
          · exact Or.inl (hor _ hx3)

theorem mergeAll_mem :
    ∀ (hs : List (List P)) (loop l2 : List P),
      mergeAll loop hs = .ok l2 → ∀ x ∈ l2, x ∈ loop ∨ ∃ hh ∈ hs, x ∈ hh := by
  intro hs
  induction hs with
  | nil =>
    intro loop l2 h x hx
    rw [mergeAll] at h
    cases h
    exact Or.inl hx
  | cons hh t ih =>
    intro loop l2 h x hx
    unfold mergeAll at h
    split at h
    · exact absurd h (by simp)
    · next lmid heq =>
      rcases ih lmid l2 h x hx with hin | ⟨hh2, hmem, hx2⟩
      · rcases mergeOneHole_mem heq hin with h2 | h2
        · exact Or.inl h2
        · exact Or.inr ⟨hh, List.mem_cons_self .., h2⟩
      · exact Or.inr ⟨hh2, List.mem_cons_of_mem _ hmem, hx2⟩

theorem mergeHoles_mem {outer l2 : List P} {holes : List (List P)}
    (h : mergeHoles outer holes = .ok l2) :
    ∀ x ∈ l2, x ∈ outer ∨ ∃ hh ∈ holes, x ∈ hh := by
  intro x hx
  rcases mergeAll_mem _ _ _ h x hx with h2 | ⟨hh, hmem, hx2⟩
  · exact Or.inl h2
  · exact Or.inr ⟨hh,
      (List.Perm.mem_iff (List.perm_insertionSort holeBefore holes)).mp hmem, hx2⟩


omit [PointRef P] [DecidableEq P] in
theorem enum_snd_mem {l : List α} {v : ℕ × α} (h : v ∈ l.enum) : v.2 ∈ l := by
  have he := List.enum_map_snd l
  exact he ▸ List.mem_map_of_mem _ h

theorem foldl_option_mem {α : Type} (g : Option α → α → Option α)
    (hg : ∀ acc x y, g acc x = some y → y = x ∨ acc = some y) :
    ∀ (l : List α) (init : Option α) (y : α),
      l.foldl g init = some y → y ∈ l ∨ init = some y := by
  intro l
  induction l with
  | nil => intro init y h; exact Or.inr h
  | cons a t ih =>
    intro init y h
    rcases ih (g init a) y h with hmem | hacc
    · exact Or.inl (List.mem_cons_of_mem a hmem)
    · rcases hg init a y hacc with rfl | h2
      · exact Or.inl (List.mem_cons_self ..)
      · exact Or.inr h2

theorem edgeLeft_mem {st : List (StatEntry P)} {v : Vtx P} {ee : StatEntry P}
    (h : edgeLeft st v = some ee) : ee ∈ st := by
  unfold edgeLeft at h
  have hres : ee ∈ st ∨ (none : Option (StatEntry P)) = some ee := by
    apply foldl_option_mem _ _ st none ee h
    intro acc x y hxy
    split at hxy
    · cases acc with
      | none => cases hxy; exact Or.inl rfl
      | some b =>
        simp only [] at hxy
        split at hxy
        · cases hxy; exact Or.inl rfl
        · exact Or.inr hxy
    · exact Or.inr hxy
  rcases hres with h2 | h2
  · exact h2
  · simp at h2

theorem findEdge_mem {st : List (StatEntry P)} {i j : ℕ} {ee : StatEntry P}
    (h : findEdge st i j = some ee) : ee ∈ st :=
  List.mem_of_find?_eq_some h

theorem removeEdge_mem {st : List (StatEntry P)} {i j : ℕ} {x : StatEntry P}
    (h : x ∈ removeEdge st i j) : x ∈ st :=
  List.mem_of_mem_filter h

theorem setHelper_good {loop : List P} {st : List (StatEntry P)} {i j : ℕ}
    {hv : Vtx P} {c : VClass}
    (hs : ∀ ee ∈ st, ee.ea.2 ∈ loop ∧ ee.eb.2 ∈ loop ∧ ee.helper.2 ∈ loop)
    (hhv : hv.2 ∈ loop) :
    ∀ x ∈ setHelper st i j hv c,
      x.ea.2 ∈ loop ∧ x.eb.2 ∈ loop ∧ x.helper.2 ∈ loop := by
  intro x hx
  unfold setHelper at hx
  obtain ⟨y, hy, heq⟩ := List.mem_map.mp hx
  have hgy := hs y hy
  split at heq <;> subst heq
  · exact ⟨hgy.1, hgy.2.1, hhv⟩
  · exact hgy

theorem diagTo_good {loop : List P} {v : Vtx P} {ee : StatEntry P}
    (hv : v.2 ∈ loop) (he : ee.helper.2 ∈ loop) :
    ∀ d ∈ diagTo v ee, d.1.2 ∈ loop ∧ d.2.2 ∈ loop := by
  intro d hd
  unfold diagTo at hd
  split at hd
  · rw [List.mem_singleton] at hd; subst hd; exact ⟨hv, he⟩
  · simp at hd

theorem sweepStep_good {loop : List P} {st : SweepState P}
    {t : Vtx P × Vtx P × Vtx P}
    (hs : ∀ ee ∈ st.status, ee.ea.2 ∈ loop ∧ ee.eb.2 ∈ loop ∧ ee.helper.2 ∈ loop)
    (hd : ∀ d ∈ st.diags, d.1.2 ∈ loop ∧ d.2.2 ∈ loop)
    (ht1 : t.1.2 ∈ loop) (ht2 : t.2.1.2 ∈ loop) (ht3 : t.2.2.2 ∈ loop) :
    (∀ ee ∈ (sweepStep st t).status,
        ee.ea.2 ∈ loop ∧ ee.eb.2 ∈ loop ∧ ee.helper.2 ∈ loop) ∧
      ∀ d ∈ (sweepStep st t).diags, d.1.2 ∈ loop ∧ d.2.2 ∈ loop := by
  unfold sweepStep
  simp only []
  split
  · -- start
    refine ⟨?_, hd⟩
    intro ee hee
    rcases List.mem_append.mp hee with h2 | h2
    · exact hs ee h2
    · rw [List.mem_singleton] at h2; subst h2; exact ⟨ht2, ht3, ht2⟩
  · -- stop
    constructor
    · intro ee hee; exact hs ee (removeEdge_mem hee)
    · intro d hdm
      rcases List.mem_append.mp hdm with h2 | h2
      · exact hd d h2
      · cases hf : findEdge st.status t.1.1 t.2.1.1 with
        | none => rw [hf] at h2; simp at h2
        | some e2 =>
          rw [hf] at h2
          exact diagTo_good ht2 (hs e2 (findEdge_mem hf)).2.2 d h2
  · -- split vertex
    cases he : edgeLeft st.status t.2.1 with
    | none =>
      simp only []
      refine ⟨?_, hd⟩
      intro ee hee
      rcases List.mem_append.mp hee with h2 | h2
      · exact hs ee h2
      · rw [List.mem_singleton] at h2; subst h2; exact ⟨ht2, ht3, ht2⟩
    | some e2 =>
      simp only []
      constructor
      · intro ee hee
        rcases List.mem_append.mp hee with h2 | h2
        · exact setHelper_good hs ht2 ee h2
        · rw [List.mem_singleton] at h2; subst h2; exact ⟨ht2, ht3, ht2⟩
      · intro d hdm
        rcases List.mem_append.mp hdm with h2 | h2
        · exact hd d h2
        · rw [List.mem_singleton] at h2; subst h2
          exact ⟨ht2, (hs e2 (edgeLeft_mem he)).2.2⟩
  · -- merge vertex
    cases he : edgeLeft (removeEdge st.status t.1.1 t.2.1.1) t.2.1 with
    | none =>
      simp only []
      constructor
      · intro ee hee; exact hs ee (removeEdge_mem hee)
      · intro d hdm
        rcases List.mem_append.mp hdm with h2 | h2
        · exact hd d h2
        · cases hf : findEdge st.status t.1.1 t.2.1.1 with
          | none => rw [hf] at h2; simp at h2
          | some e2 =>
            rw [hf] at h2
            exact diagTo_good ht2 (hs e2 (findEdge_mem hf)).2.2 d h2
    | some e2 =>
      simp only []
      constructor
      · intro ee hee
        exact setHelper_good (fun y hy => hs y (removeEdge_mem hy)) ht2 ee hee
      · intro d hdm
        rcases List.mem_append.mp hdm with h2 | h2
        · rcases List.mem_append.mp h2 with h3 | h3
          · exact hd d h3
          · cases hf : findEdge st.status t.1.1 t.2.1.1 with
            | none => rw [hf] at h3; simp at h3
            | some e3 =>
              rw [hf] at h3
              exact diagTo_good ht2 (hs e3 (findEdge_mem hf)).2.2 d h3
        · exact diagTo_good ht2
            (hs e2 (removeEdge_mem (edgeLeft_mem he))).2.2 d h2
  · -- regular, interior right
    constructor
    · intro ee hee
      rcases List.mem_append.mp hee with h2 | h2
      · exact hs ee (removeEdge_mem h2)
      · rw [List.mem_singleton] at h2; subst h2; exact ⟨ht2, ht3, ht2⟩
    · intro d hdm
      rcases List.mem_append.mp hdm with h2 | h2
      · exact hd d h2
      · cases hf : findEdge st.status t.1.1 t.2.1.1 with
        | none => rw [hf] at h2; simp at h2
        | some e2 =>
          rw [hf] at h2
          exact diagTo_good ht2 (hs e2 (findEdge_mem hf)).2.2 d h2
  · -- regular, interior left
    cases he : edgeLeft st.status t.2.1 with
    | none => exact ⟨hs, hd⟩
    | some e2 =>
      simp only []
      constructor
      · exact setHelper_good hs ht2
      · intro d hdm
        rcases List.mem_append.mp hdm with h2 | h2
        · exact hd d h2
        · exact diagTo_good ht2 (hs e2 (edgeLeft_mem he)).2.2 d h2

theorem sweep_fold_good {loop : List P} :
    ∀ (evs : List (Vtx P × Vtx P × Vtx P)) (st : SweepState P),
      (∀ ee ∈ st.status,
        ee.ea.2 ∈ loop ∧ ee.eb.2 ∈ loop ∧ ee.helper.2 ∈ loop) →
      (∀ d ∈ st.diags, d.1.2 ∈ loop ∧ d.2.2 ∈ loop) →
      (∀ t ∈ evs, t.1.2 ∈ loop ∧ t.2.1.2 ∈ loop ∧ t.2.2.2 ∈ loop) →
      ∀ d ∈ (evs.foldl sweepStep st).diags, d.1.2 ∈ loop ∧ d.2.2 ∈ loop := by
  intro evs
  induction evs with
  | nil => intro st hs hd _; exact hd
  | cons t evt ih =>
    intro st hs hd hts
    have ht := hts t (List.mem_cons_self ..)
    have hstep := sweepStep_good hs hd ht.1 ht.2.1 ht.2.2
    exact ih (sweepStep st t) hstep.1 hstep.2
      (fun q hq => hts q (List.mem_cons_of_mem _ hq))

theorem sweepDiags_good (loop : List P) :
    ∀ d ∈ sweepDiags loop.enum, d.1.2 ∈ loop ∧ d.2.2 ∈ loop := by
  unfold sweepDiags
  apply sweep_fold_good _ _ (by simp) (by simp)
  intro t hts
  have hmem := (List.Perm.mem_iff (List.perm_insertionSort _ _)).mp hts
  obtain ⟨h1, h2, h3⟩ := cyclicTriples_mem hmem
  exact ⟨enum_snd_mem h1, enum_snd_mem h2, enum_snd_mem h3⟩

theorem sortAng_mem {v : ℚ × ℚ} {l : List (Vtx P)} {x : Vtx P}
    (h : x ∈ sortAng v l) : x ∈ l :=
  (List.Perm.mem_iff (List.perm_insertionSort _ _)).mp h

theorem diagPartners_good {loop : List P} {diags : List (Vtx P × Vtx P)}
    (hd : ∀ d ∈ diags, d.1.2 ∈ loop ∧ d.2.2 ∈ loop) (v : Vtx P) :
    ∀ w ∈ diagPartners diags v, w.2 ∈ loop := by
  intro w hw
  unfold diagPartners at hw
  obtain ⟨d, hdm, hdw⟩ := List.mem_filterMap.mp hw
  have hg := hd d hdm
  split at hdw
  · cases hdw; exact hg.2
  · split at hdw
    · cases hdw; exact hg.1
    · simp at hdw

theorem buildAdj_good {loop : List P} {diags : List (Vtx P × Vtx P)}
    (hd : ∀ d ∈ diags, d.1.2 ∈ loop ∧ d.2.2 ∈ loop) :
    ∀ out ∈ buildAdj loop.enum diags, ∀ w ∈ out, w.2 ∈ loop := by
  intro out hout w hw
  unfold buildAdj at hout
  obtain ⟨t, htm, hts⟩ := List.mem_map.mp hout
  obtain ⟨h1, h2, h3⟩ := cyclicTriples_mem htm
  have hw2 := sortAng_mem (hts ▸ hw)
  rcases List.mem_cons.mp hw2 with rfl | hw3
  · exact enum_snd_mem h3
  · rcases List.mem_cons.mp hw3 with rfl | hw4
    · exact enum_snd_mem h1
    · exact diagPartners_good hd _ w hw4

theorem nextHE_good {loop : List P} {adj : List (List (Vtx P))}
    (hadj : ∀ out ∈ adj, ∀ w ∈ out, w.2 ∈ loop) {he nh : HEdge P}
    (h : nextHE adj he = some nh) (h2 : he.2.2 ∈ loop) :
    nh.1.2 ∈ loop ∧ nh.2.2 ∈ loop := by
  unfold nextHE at h
  cases hg : adj.get? he.2.1 with
  | none => rw [hg] at h; simp at h
  | some out =>
    rw [hg] at h
    simp only [] at h
    cases hi : out.findIdx? (fun t => t.1 == he.1.1) with
    | none => rw [hi] at h; simp at h
    | some i =>
      rw [hi] at h
      simp only [] at h
      cases ho : out.get? ((i + out.length - 1) % out.length) with
      | none => rw [ho] at h; simp at h
      | some t =>
        rw [ho] at h
        cases h
        exact ⟨h2, hadj out (List.get?_mem hg) t (List.get?_mem ho)⟩

theorem walkFace_good {loop : List P} {adj : List (List (Vtx P))}
    (hadj : ∀ out ∈ adj, ∀ w ∈ out, w.2 ∈ loop) :
    ∀ (fuel : ℕ) (start cur : HEdge P),
      cur.1.2 ∈ loop → cur.2.2 ∈ loop →
      ∀ he ∈ walkFace adj start fuel cur, he.1.2 ∈ loop ∧ he.2.2 ∈ loop := by
  intro fuel
  induction fuel with
  | zero =>
    intro start cur h1 h2 he hhe
    rw [walkFace] at hhe
    rw [List.mem_singleton] at hhe
    subst hhe
    exact ⟨h1, h2⟩
  | succ n ih =>
    intro start cur h1 h2 he hhe
    rw [walkFace] at hhe
    cases hn : nextHE adj cur with
    | none =>
      rw [hn] at hhe
      rw [List.mem_singleton] at hhe
      subst hhe
      exact ⟨h1, h2⟩
    | some nxt =>
      rw [hn] at hhe
      simp only [] at hhe
      have hng := nextHE_good hadj hn h2
      split at hhe
      · rw [List.mem_singleton] at hhe; subst hhe; exact ⟨h1, h2⟩
      · rcases List.mem_cons.mp hhe with rfl | hhe2
        · exact ⟨h1, h2⟩
        · exact ih start nxt hng.1 hng.2 he hhe2

theorem facesGo_good {loop : List P} {adj : List (List (Vtx P))}
    (hadj : ∀ out ∈ adj, ∀ w ∈ out, w.2 ∈ loop) (fuel : ℕ) :
    ∀ (hes : List (HEdge P)) (used : List (ℕ × ℕ)),
      (∀ he ∈ hes, he.1.2 ∈ loop ∧ he.2.2 ∈ loop) →
      ∀ f ∈ facesGo adj fuel used hes, ∀ w ∈ f, w.2 ∈ loop := by
  intro hes
  induction hes with
  | nil => intro used _ f hf; simp [facesGo] at hf
  | cons h t ih =>
    intro used hgood f hf
    rw [facesGo] at hf
    split at hf
    · exact ih used (fun he hhe => hgood he (List.mem_cons_of_mem _ hhe)) f hf
    · simp only [] at hf
      have hh := hgood h (List.mem_cons_self ..)
      rcases List.mem_cons.mp hf with rfl | hf2
      · intro w hw
        obtain ⟨he, hhe, hws⟩ := List.mem_map.mp hw
        have := walkFace_good hadj fuel h h hh.1 hh.2 he hhe
        exact hws ▸ this.1
      · exact ih _ (fun he hhe => hgood he (List.mem_cons_of_mem _ hhe)) f hf2

theorem extractFaces_good (loop : List P) :
    ∀ f ∈ extractFaces loop.enum (sweepDiags loop.enum), ∀ w ∈ f, w.2 ∈ loop := by
  intro f hf
  unfold extractFaces at hf
  simp only [] at hf
  have hfm := List.mem_of_mem_filter hf
  have hd := sweepDiags_good loop
  apply facesGo_good (buildAdj_good hd) _ _ _ _ _ hfm
  intro he hhe
  rcases List.mem_append.mp hhe with h2 | h2
  · rcases List.mem_append.mp h2 with h3 | h3
    · obtain ⟨t, htm, hts⟩ := List.mem_map.mp h3
      obtain ⟨_, hb, hc⟩ := cyclicTriples_mem htm
      subst hts
      exact ⟨enum_snd_mem hb, enum_snd_mem hc⟩
    · obtain ⟨t, htm, hts⟩ := List.mem_map.mp h3
      obtain ⟨ha, hb, _⟩ := cyclicTriples_mem htm
      subst hts
      exact ⟨enum_snd_mem hb, enum_snd_mem ha⟩
  · obtain ⟨d, hdm, hds⟩ := List.mem_flatMap.mp h2
    have hg := hd d hdm
    rcases List.mem_cons.mp hds with rfl | hds2
    · exact ⟨hg.1, hg.2⟩
    · rw [List.mem_singleton] at hds2
      subst hds2
      exact ⟨hg.2, hg.1⟩

theorem mergeTV_mem :
    ∀ (fuel : ℕ) (a b : List (TV P)) (x : TV P),
      x ∈ mergeTV fuel a b → x ∈ a ∨ x ∈ b := by
  intro fuel
  induction fuel with
  | zero =>
    intro a b x h
    rw [mergeTV] at h
    exact List.mem_append.mp h
  | succ n ih =>
    intro a b x h
    cases a with
    | nil => rw [mergeTV] at h; exact Or.inr h
    | cons a0 as =>
      cases b with
      | nil => rw [mergeTV] at h; exact Or.inl h
      | cons b0 bs =>
        rw [mergeTV] at h
        split at h
        · rcases List.mem_cons.mp h with rfl | h2
          · exact Or.inl (List.mem_cons_self ..)
          · rcases ih as (b0 :: bs) x h2 with h3 | h3
            · exact Or.inl (List.mem_cons_of_mem _ h3)
            · exact Or.inr h3
        · rcases List.mem_cons.mp h with rfl | h2
          · exact Or.inr (List.mem_cons_self ..)
          · rcases ih (a0 :: as) bs x h2 with h3 | h3
            · exact Or.inl h3
            · exact Or.inr (List.mem_cons_of_mem _ h3)

theorem chainsOf_good {loop : List P} {f : List (Vtx P)}
    (hf : ∀ w ∈ f, w.2 ∈ loop) : ∀ x ∈ chainsOf f, x.v.2 ∈ loop := by
  intro x hx
  unfold chainsOf at hx
  simp only [] at hx
  have hr : ∀ w ∈ f.rotate (topIdx f), w.2 ∈ loop := by
    intro w hw; exact hf w (List.mem_rotate.mp hw)
  rcases mergeTV_mem _ _ _ x hx with h2 | h2
  · obtain ⟨w, hw, hws⟩ := List.mem_map.mp h2
    exact hws ▸ hr w (List.take_subset _ _ hw)
  · obtain ⟨w, hw, hws⟩ := List.mem_map.mp h2
    exact hws ▸ hr w (List.drop_subset _ _ (List.mem_reverse.mp hw))

theorem mkCCW_good {loop : List P} {a b c : P} (ha : a ∈ loop) (hb : b ∈ loop)
    (hc : c ∈ loop) :
    (mkCCW a b c).a ∈ loop ∧ (mkCCW a b c).b ∈ loop ∧ (mkCCW a b c).c ∈ loop := by
  unfold mkCCW
  split
  · exact ⟨ha, hc, hb⟩
  · exact ⟨ha, hb, hc⟩

theorem emitAll_good {loop : List P} {v : Vtx P} (hv : v.2 ∈ loop) :
    ∀ l : List (Vtx P), (∀ w ∈ l, w.2 ∈ loop) →
      ∀ t ∈ emitAll v l, t.a ∈ loop ∧ t.b ∈ loop ∧ t.c ∈ loop := by
  intro l
  induction l with
  | nil => intro _ t ht; simp [emitAll] at ht
  | cons a tl ih =>
    intro hl t ht
    cases tl with
    | nil => simp [emitAll] at ht
    | cons b t2 =>
      rw [emitAll] at ht
      rcases List.mem_cons.mp ht with rfl | ht2
      · exact mkCCW_good (hl a (List.mem_cons_self ..))
          (hl b (List.mem_cons_of_mem _ (List.mem_cons_self ..))) hv
      · exact ih (fun w hw => hl w (List.mem_cons_of_mem _ hw)) t ht2

theorem popSame_good {loop : List P} {v : Vtx P} {right : Bool}
    (hv : v.2 ∈ loop) :
    ∀ (stack : List (TV P)) (u : TV P), u.v.2 ∈ loop →
      (∀ w ∈ stack, w.v.2 ∈ loop) →
      (∀ t ∈ (popSame v right u stack).1,
        t.a ∈ loop ∧ t.b ∈ loop ∧ t.c ∈ loop) ∧
      (popSame v right u stack).2.1.v.2 ∈ loop ∧
      ∀ w ∈ (popSame v right u stack).2.2, w.v.2 ∈ loop := by
  intro stack
  induction stack with
  | nil =>
    intro u hu _
    rw [popSame]
    exact ⟨by simp, hu, by simp⟩
  | cons w t ih =>
    intro u hu hst
    rw [popSame]
    simp only []
    have hw := hst w (List.mem_cons_self ..)
    have hrec := ih w hw (fun q hq => hst q (List.mem_cons_of_mem _ hq))
    split <;> split
    all_goals first
      | · refine ⟨?_, hrec.2.1, hrec.2.2⟩
          intro tr htr
          rcases List.mem_cons.mp htr with rfl | htr2
          · exact mkCCW_good hu hw hv
          · exact hrec.1 tr htr2
      | exact ⟨by simp, hu, hst⟩

theorem stackStep_good {loop : List P} {stack : List (TV P)}
    {acc : List (Tri P)} {v : TV P}
    (hst : ∀ w ∈ stack, w.v.2 ∈ loop)
    (hacc : ∀ t ∈ acc, t.a ∈ loop ∧ t.b ∈ loop ∧ t.c ∈ loop)
    (hv : v.v.2 ∈ loop) :
    (∀ w ∈ (stackStep stack acc v).1, w.v.2 ∈ loop) ∧
      ∀ t ∈ (stackStep stack acc v).2,
        t.a ∈ loop ∧ t.b ∈ loop ∧ t.c ∈ loop := by
  unfold stackStep
  cases stack with
  | nil =>
    simp only []
    constructor
    · intro w hw; rw [List.mem_singleton] at hw; subst hw; exact hv
    · exact hacc
  | cons top rest =>
    simp only []
    split
    · constructor
      · intro w hw
        rcases List.mem_cons.mp hw with rfl | hw2
        · exact hv
        · rw [List.mem_singleton] at hw2
          subst hw2
          exact hst _ (List.mem_cons_self ..)
      · intro t ht
        rcases List.mem_append.mp ht with h2 | h2
        · exact hacc t h2
        · apply emitAll_good hv _ _ t h2
          intro w hw
          obtain ⟨q, hq, hqs⟩ := List.mem_map.mp hw
          exact hqs ▸ hst q hq
    · have htop := hst top (List.mem_cons_self ..)
      have hrest : ∀ w ∈ rest, w.v.2 ∈ loop :=
        fun w hw => hst w (List.mem_cons_of_mem _ hw)
      have hps := @popSame_good P _ _ loop v.v v.right hv rest top htop hrest
      constructor
      · intro w hw
        rcases List.mem_cons.mp hw with rfl | hw2
        · exact hv
        · rcases List.mem_cons.mp hw2 with rfl | hw3
          · exact hps.2.1
          · exact hps.2.2 w hw3
      · intro t ht
        rcases List.mem_append.mp ht with h2 | h2
        · exact hacc t h2
        · exact hps.1 t h2

theorem runStack_good {loop : List P} :
    ∀ (rest : List (TV P)) (stack : List (TV P)) (acc : List (Tri P)),
      (∀ w ∈ stack, w.v.2 ∈ loop) →
      (∀ t ∈ acc, t.a ∈ loop ∧ t.b ∈ loop ∧ t.c ∈ loop) →
      (∀ w ∈ rest, w.v.2 ∈ loop) →
      ∀ t ∈ runStack stack acc rest,
        t.a ∈ loop ∧ t.b ∈ loop ∧ t.c ∈ loop := by
  intro rest
  induction rest with
  | nil => intro stack acc hst hacc _ t ht; rw [runStack] at ht; exact hacc t ht
  | cons v vt ih =>
    intro stack acc hst hacc hrest t ht
    cases vt with
    | nil =>
      rw [runStack] at ht
      rcases List.mem_append.mp ht with h2 | h2
      · exact hacc t h2
      · apply emitAll_good (hrest v (List.mem_cons_self ..)) _ _ t h2
        intro w hw
        obtain ⟨q, hq, hqs⟩ := List.mem_map.mp hw
        exact hqs ▸ hst q hq
    | cons w wt =>
      rw [runStack] at ht
      have hv := hrest v (List.mem_cons_self ..)
      have hss := stackStep_good hst hacc hv
      exact ih _ _ hss.1 hss.2
        (fun q hq => hrest q (List.mem_cons_of_mem _ hq)) t ht

theorem triangulateMonotone_good {loop : List P} {f : List (Vtx P)}
    (hf : ∀ w ∈ f, w.2 ∈ loop) :
    ∀ t ∈ triangulateMonotone f, t.a ∈ loop ∧ t.b ∈ loop ∧ t.c ∈ loop := by
  intro t ht
  unfold triangulateMonotone at ht
  have hch := chainsOf_good hf
  cases hc : chainsOf f with
  | nil => rw [hc] at ht; simp at ht
  | cons a tl =>
    cases tl with
    | nil => rw [hc] at ht; simp at ht
    | cons b t2 =>
      rw [hc] at ht
      simp only [] at ht
      have ha := hch a (hc ▸ List.mem_cons_self ..)
      have hb := hch b (hc ▸ List.mem_cons_of_mem _ (List.mem_cons_self ..))
      have ht2 : ∀ w ∈ t2, w.v.2 ∈ loop := by
        intro w hw
        exact hch w (hc ▸ List.mem_cons_of_mem _ (List.mem_cons_of_mem _ hw))
      apply runStack_good t2 [b, a] [] _ (by simp) ht2 t ht
      intro w hw
      rcases List.mem_cons.mp hw with rfl | hw2
      · exact hb
      · rw [List.mem_singleton] at hw2; subst hw2; exact ha

theorem triangulateLoop_good (loop : List P) :
    ∀ t ∈ triangulateLoop loop, t.a ∈ loop ∧ t.b ∈ loop ∧ t.c ∈ loop := by
  intro t ht
  unfold triangulateLoop at ht
  obtain ⟨f, hfm, htf⟩ := List.mem_flatMap.mp ht
  exact triangulateMonotone_good (extractFaces_good loop f hfm) t htf

theorem normalize_group_mem {rings : List (List P)} {gs : List (Group P)}
    (h : normalize rings = .ok gs) :
    ∀ g ∈ gs, (∀ x ∈ g.outer, x ∈ rings.flatten) ∧
      ∀ hh ∈ g.holes, ∀ x ∈ hh, x ∈ rings.flatten := by
  have hcoll : ∀ r ∈ rings.map collapseRing, ∀ x ∈ r, x ∈ rings.flatten := by
    intro r hr x hx
    obtain ⟨r0, hr0, hrs⟩ := List.mem_map.mp hr
    subst hrs
    exact List.mem_flatten.mpr ⟨r0, hr0, mem_of_mem_collapseRing hx⟩
  unfold normalize at h
  split at h
  · exact absurd h (by simp)
  · split at h
    · cases h; simp
    · next r0 rest heq =>
      simp only [] at h
      have hr0 : ∀ x ∈ r0, x ∈ rings.flatten :=
        fun x hx => hcoll r0 (heq ▸ List.mem_cons_self ..) x hx
      have houter : ∀ y ∈ rest, ∀ x ∈ y, x ∈ rings.flatten := by
        intro y hy x hx
        exact hcoll y (heq ▸ List.mem_cons_of_mem _ hy) x hx
      generalize hrc : (if ringArea r0 < 0 then r0.reverse else r0) = r0c at h
      have hhead : ∀ x ∈ r0c, x ∈ rings.flatten := by
        intro x hx
        rw [← hrc] at hx
        split at hx
        · exact hr0 x (List.mem_reverse.mp hx)
        · exact hr0 x hx
      split at h
      · exact absurd h (by simp)
      · simp only [Except.ok.injEq] at h
        subst h
        intro g hg
        obtain ⟨o, ho, hgs⟩ := List.mem_map.mp hg
        subst hgs
        constructor
        · intro x hx
          simp only [] at hx ho ⊢
          rcases List.mem_cons.mp ho with rfl | ho2
          · exact hhead x hx
          · exact houter o (List.mem_of_mem_filter ho2) x hx
        · intro hh hhm x hx
          simp only [] at hhm
          exact houter hh
            (List.mem_of_mem_filter (List.mem_of_mem_filter hhm)) x hx

theorem triangulateGroup_good {g : Group P} {ts : List (Tri P)}
    (h : triangulateGroup g = .ok ts) :
    ∀ t ∈ ts,
      (t.a ∈ g.outer ∨ ∃ hh ∈ g.holes, t.a ∈ hh) ∧
      (t.b ∈ g.outer ∨ ∃ hh ∈ g.holes, t.b ∈ hh) ∧
      (t.c ∈ g.outer ∨ ∃ hh ∈ g.holes, t.c ∈ hh) := by
  unfold triangulateGroup at h
  cases hm : mergeHoles g.outer g.holes with
  | error e => rw [hm] at h; simp [Except.map] at h
  | ok loop =>
    rw [hm] at h
    simp only [Except.map, Except.ok.injEq] at h
    subst h
    intro t ht
    have hg := triangulateLoop_good loop t ht
    exact ⟨mergeHoles_mem hm _ hg.1, mergeHoles_mem hm _ hg.2.1,
      mergeHoles_mem hm _ hg.2.2⟩

theorem collectGroups_good :
    ∀ (gs : List (Group P)) (ts : List (Tri P)), collectGroups gs = .ok ts →
      ∀ t ∈ ts, ∃ g ∈ gs,
        (t.a ∈ g.outer ∨ ∃ hh ∈ g.holes, t.a ∈ hh) ∧
        (t.b ∈ g.outer ∨ ∃ hh ∈ g.holes, t.b ∈ hh) ∧
        (t.c ∈ g.outer ∨ ∃ hh ∈ g.holes, t.c ∈ hh) := by
  intro gs
  induction gs with
  | nil =>
    intro ts h t ht
    rw [collectGroups] at h
    cases h
    simp at ht
  | cons g gt ih =>
    intro ts h t ht
    unfold collectGroups at h
    split at h
    · exact absurd h (by simp)
    · next ts1 heq =>
      split at h
      · exact absurd h (by simp)
      · next rest heq2 =>
        simp only [Except.ok.injEq] at h
        subst h
        rcases List.mem_append.mp ht with h2 | h2
        · exact ⟨g, List.mem_cons_self .., triangulateGroup_good heq t h2⟩
        · obtain ⟨g2, hg2, hp⟩ := ih rest heq2 t h2
          exact ⟨g2, List.mem_cons_of_mem _ hg2, hp⟩

/-- **C4.** Every point reference in every output triangle is one of the
point records the caller supplied (the pipeline is parametric in the point
type `P`, so it can only pass caller records through, never synthesize or
copy them; coincident but distinct records stay distinct values of `P`). -/
theorem triangulate_points_from_caller (rings : List (List P)) :
    ∀ t ∈ (Triangulate rings).1,
      t.a ∈ rings.flatten ∧ t.b ∈ rings.flatten ∧ t.c ∈ rings.flatten := by
  intro t ht
  unfold Triangulate at ht
  cases hn : normalize rings with
  | error e => rw [hn] at ht; simp at ht
  | ok gs =>
    rw [hn] at ht
    simp only [] at ht
    cases hc : collectGroups gs with
    | error e => rw [hc] at ht; simp at ht
    | ok ts =>
      rw [hc] at ht
      simp only [] at ht
      obtain ⟨g, hgm, hg⟩ := collectGroups_good gs ts hc t ht
      have hnm := normalize_group_mem hn g hgm
      have resolve : ∀ x : P,
          (x ∈ g.outer ∨ ∃ hh ∈ g.holes, x ∈ hh) → x ∈ rings.flatten := by
        intro x hx
        rcases hx with h2 | ⟨hh, hhm, h2⟩
        · exact hnm.1 x h2
        · exact hnm.2 hh hhm x h2
      exact ⟨resolve _ hg.1, resolve _ hg.2.1, resolve _ hg.2.2⟩

/-- Witness for C4: a concrete output triangle of the unit square input
has all three of its point records among the caller's points. -/
theorem triangulate_points_from_caller_witness :
    (⟨⟨2, 1, 1⟩, ⟨3, 0, 1⟩, ⟨0, 0, 0⟩⟩ : Tri Pt).a ∈ [c9square].flatten ∧
      (⟨⟨2, 1, 1⟩, ⟨3, 0, 1⟩, ⟨0, 0, 0⟩⟩ : Tri Pt).b ∈ [c9square].flatten ∧
      (⟨⟨2, 1, 1⟩, ⟨3, 0, 1⟩, ⟨0, 0, 0⟩⟩ : Tri Pt).c ∈ [c9square].flatten :=
  triangulate_points_from_caller [c9square] ⟨⟨2, 1, 1⟩, ⟨3, 0, 1⟩, ⟨0, 0, 0⟩⟩
    (by with_unfolding_all decide)

end GoTriangulate

namespace GoTriangulate

variable {P : Type} [PointRef P] [DecidableEq P]

/-! ### Shoelace algebra

Facts about `chain` and `shoelace` used to settle the convex-polygon
triangle-count claim: the shoelace sum is invariant under rotation of the
ring and flips sign under reversal. -/

theorem cross_self (a : P) : cross a a = 0 := by
  unfold cross; ring

theorem cross_anti (a b : P) : cross a b = -cross b a := by
  unfold cross; ring

theorem chain_append (xs : List P) (y : P) (ys : List P) :
    chain (xs ++ y :: ys) = chain (xs ++ [y]) + chain (y :: ys) := by
  induction xs with
  | nil => simp [chain]
  | cons a xs ih =>
    cases xs with
    | nil => simp [chain]
    | cons b xs' =>
      simp only [List.cons_append, List.append_eq, chain] at *
      rw [ih]; ring

theorem chain_reverse_aux (t : List P) :
    ∀ a : P, chain ((a :: t).reverse) = -chain (a :: t) := by
  induction t with
  | nil => intro a; simp [chain]
  | cons b t' ih =>
    intro a
    have h1 : (a :: b :: t').reverse = t'.reverse ++ b :: [a] := by simp
    rw [h1, chain_append t'.reverse b [a]]
    have h2 : t'.reverse ++ [b] = (b :: t').reverse := by simp
    rw [h2, ih b]
    simp only [chain, cross]
    ring

theorem chain_reverse (l : List P) : chain l.reverse = -chain l := by
  cases l with
  | nil => simp [chain]
  | cons a t => exact chain_reverse_aux t a

theorem shoelace_rotate_one (a : P) (t : List P) :
    shoelace (a :: t) = shoelace (t ++ [a]) := by
  cases t with
  | nil => rfl
  | cons b t' =>
    have e1 : shoelace (a :: b :: t') = chain ([a] ++ b :: (t' ++ [a])) := rfl
    have e2 : shoelace ((b :: t') ++ [a]) =
        chain ((b :: (t' ++ [a])) ++ [b]) := rfl
    rw [e1, e2, chain_append [a] b (t' ++ [a])]
    have e3 : (b :: (t' ++ [a])) ++ [b] = (b :: t') ++ a :: [b] := by simp
    rw [e3, chain_append (b :: t') a [b]]
    have e4 : (b :: t') ++ [a] = b :: (t' ++ [a]) := by simp
    rw [e4]
    simp only [chain, cross, List.singleton_append]
    ring

theorem shoelace_rotate1 (l : List P) : shoelace (l.rotate 1) = shoelace l := by
  cases l with
  | nil => rfl
  | cons a t =>
    rw [List.rotate_cons_succ, List.rotate_zero]
    exact (shoelace_rotate_one a t).symm

theorem shoelace_reverse (l : List P) : shoelace l.reverse = -shoelace l := by
  cases l with
  | nil => simp [shoelace]
  | cons a t =>
    have h1 : (a :: t).reverse = t.reverse ++ [a] := by simp
    rw [h1, ← shoelace_rotate_one a t.reverse]
    have h2 : shoelace (a :: t.reverse) = chain (a :: (t.reverse ++ [a])) := rfl
    have h3 : shoelace (a :: t) = chain (a :: (t ++ [a])) := rfl
    rw [h2, h3]
    have h4 : a :: (t.reverse ++ [a]) = (a :: (t ++ [a])).reverse := by simp
    rw [h4, chain_reverse]

theorem chain_map_snd (il : List (Vtx P)) :
    chain il = chain (il.map Prod.snd) := by
  induction il with
  | nil => rfl
  | cons a t ih =>
    cases t with
    | nil => rfl
    | cons b t' =>
      simp only [List.map_cons, chain] at *
      rw [ih]
      rfl

theorem shoelace_map_snd (il : List (Vtx P)) :
    shoelace il = shoelace (il.map Prod.snd) := by
  cases il with
  | nil => rfl
  | cons a t =>
    show chain ((a :: t) ++ [a]) = chain ((a.2 :: t.map Prod.snd) ++ [a.2])
    rw [chain_map_snd ((a :: t) ++ [a])]
    simp

/-! ### Index toolkit for `zip3` and `cyclicTriples` -/

theorem zip3_length (a : List α) (b : List β) (c : List γ) :
    (zip3 a b c).length = min a.length (min b.length c.length) := by
  induction a generalizing b c with
  | nil => cases b <;> cases c <;> simp [zip3]
  | cons x as ih =>
    cases b with
    | nil => simp [zip3]
    | cons y bs =>
      cases c with
      | nil => simp [zip3]
      | cons z cs =>
        simp only [zip3, List.length_cons, ih]
        omega

theorem zip3_get? {a : List α} {b : List β} {c : List γ} {i : ℕ}
    {x : α} {y : β} {z : γ}
    (ha : a.get? i = some x) (hb : b.get? i = some y)
    (hc : c.get? i = some z) :
    (zip3 a b c).get? i = some (x, y, z) := by
  induction a generalizing b c i with
  | nil => simp at ha
  | cons a0 as ih =>
    cases b with
    | nil => simp at hb
    | cons b0 bs =>
      cases c with
      | nil => simp at hc
      | cons c0 cs =>
        cases i with
        | zero =>
          simp only [List.get?] at ha hb hc
          cases ha; cases hb; cases hc
          rfl
        | succ j =>
          simp only [List.get?] at ha hb hc ⊢
          exact ih ha hb hc

theorem cyclicTriples_length (l : List α) :
    (cyclicTriples l).length = l.length := by
  unfold cyclicTriples
  rw [zip3_length]
  simp

theorem cyclicTriples_get? {l : List α} {i : ℕ} {p v s : α}
    (hi : i < l.length)
    (hp : l.get? ((i + l.length - 1) % l.length) = some p)
    (hv : l.get? i = some v)
    (hs : l.get? ((i + 1) % l.length) = some s) :
    (cyclicTriples l).get? i = some (p, v, s) := by
  unfold cyclicTriples
  apply zip3_get?
  · rw [List.get?_rotate hi]
    have h : (i + (l.length - 1)) % l.length = (i + l.length - 1) % l.length := by
      congr 1
      omega
    rw [h]
    exact hp
  · exact hv
  · rw [List.get?_rotate hi]
    exact hs

theorem zip3_map (f : α → β) (a b c : List α) :
    zip3 (a.map f) (b.map f) (c.map f) =
      (zip3 a b c).map (fun t => (f t.1, f t.2.1, f t.2.2)) := by
  induction a generalizing b c with
  | nil => simp [zip3]
  | cons x as ih =>
    cases b with
    | nil => simp [zip3]
    | cons y bs =>
      cases c with
      | nil => simp [zip3]
      | cons z cs => simp [zip3, ih]

theorem cyclicTriples_map (f : α → β) (l : List α) :
    cyclicTriples (l.map f) =
      (cyclicTriples l).map (fun t => (f t.1, f t.2.1, f t.2.2)) := by
  unfold cyclicTriples
  rw [List.length_map, ← List.map_rotate, ← List.map_rotate, zip3_map]

theorem zip3_proj23 :
    ∀ (a b c : List α), a.length = b.length → b.length = c.length →
      (zip3 a b c).map (fun t => (t.2.1, t.2.2)) = b.zip c := by
  intro a
  induction a with
  | nil =>
    intro b c h1 h2
    cases b with
    | nil => cases c <;> simp [zip3]
    | cons y bs => simp at h1
  | cons x as ih =>
    intro b c h1 h2
    cases b with
    | nil => simp at h1
    | cons y bs =>
      cases c with
      | nil => simp at h2
      | cons z cs =>
        simp only [zip3, List.map_cons, List.zip_cons_cons]
        rw [ih bs cs (by simpa using h1) (by simpa using h2)]

theorem zip3_proj21 :
    ∀ (a b c : List α), a.length = b.length → b.length = c.length →
      (zip3 a b c).map (fun t => (t.2.1, t.1)) = b.zip a := by
  intro a
  induction a with
  | nil =>
    intro b c h1 h2
    cases b with
    | nil => cases c <;> simp [zip3]
    | cons y bs => simp at h1
  | cons x as ih =>
    intro b c h1 h2
    cases b with
    | nil => simp at h1
    | cons y bs =>
      cases c with
      | nil => simp at h2
      | cons z cs =>
        simp only [zip3, List.map_cons, List.zip_cons_cons]
        rw [ih bs cs (by simpa using h1) (by simpa using h2)]

/-! ### Cyclic index arithmetic -/

theorem cyc_succ_pred {n i : ℕ} (hn : 1 ≤ n) (hi : i < n) :
    ((i + 1) % n + n - 1) % n = i := by
  rw [Nat.add_sub_assoc hn, Nat.mod_add_mod]
  have h2 : i + 1 + (n - 1) = i + n := by omega
  rw [h2, Nat.add_mod_right, Nat.mod_eq_of_lt hi]

theorem cyc_pred_succ {n i : ℕ} (hn : 1 ≤ n) (hi : i < n) :
    ((i + n - 1) % n + 1) % n = i := by
  rw [Nat.mod_add_mod]
  have h2 : i + n - 1 + 1 = i + n := by omega
  rw [h2, Nat.add_mod_right, Nat.mod_eq_of_lt hi]

theorem cyc_succ_succ_ne {n i : ℕ} (h3 : 3 ≤ n) (hi : i < n) :
    ((i + 1) % n + 1) % n ≠ i := by
  rw [Nat.mod_add_mod]
  intro h
  by_cases hlt : i + 2 < n
  · rw [Nat.mod_eq_of_lt (by omega : i + 1 + 1 < n)] at h
    omega
  · have h2 : (i + 1 + 1) % n = i + 2 - n := by
      rw [Nat.mod_eq_sub_mod (by omega : n ≤ i + 1 + 1)]
      have h3' : i + 1 + 1 - n = i + 2 - n := by omega
      rw [h3']
      exact Nat.mod_eq_of_lt (by omega)
    rw [h2] at h
    omega

theorem cyc_pred_pred_ne {n i : ℕ} (h3 : 3 ≤ n) (hi : i < n) :
    ((i + n - 1) % n + n - 1) % n ≠ i := by
  rw [Nat.add_sub_assoc (by omega : 1 ≤ n), Nat.mod_add_mod]
  have h1 : i + n - 1 + (n - 1) = (i + n - 2) + n := by omega
  rw [h1, Nat.add_mod_right]
  intro h
  by_cases h2 : 2 ≤ i
  · have h3' : i + n - 2 = (i - 2) + n := by omega
    rw [h3', Nat.add_mod_right, Nat.mod_eq_of_lt (by omega)] at h
    omega
  · rw [Nat.mod_eq_of_lt (by omega)] at h
    omega

/-! ### Strict convexity forbids coincident neighbors -/

theorem signedArea_left_degen (a c : P) : signedArea a a c = 0 := by
  unfold signedArea; ring

theorem signedArea_right_degen (a b : P) : signedArea a b b = 0 := by
  unfold signedArea; ring

theorem convex_ne_succ {l : List P} (hc : convexCCW l) {i : ℕ} {v s : P}
    (hv : l.get? i = some v) (hs : l.get? ((i + 1) % l.length) = some s) :
    v ≠ s := by
  have hi : i < l.length := (List.get?_eq_some.mp hv).1
  have hlen : 0 < l.length := by omega
  have hplt : (i + l.length - 1) % l.length < l.length := Nat.mod_lt _ hlen
  obtain ⟨p, hp⟩ : ∃ p, l.get? ((i + l.length - 1) % l.length) = some p :=
    ⟨l.get ⟨_, hplt⟩, List.get?_eq_get hplt⟩
  have hmem : (p, v, s) ∈ cyclicTriples l :=
    List.get?_mem (cyclicTriples_get? hi hp hv hs)
  have harea := hc _ hmem
  intro he
  subst he
  rw [signedArea_right_degen] at harea
  exact lt_irrefl 0 harea

theorem convex_chain_ne {l : List P} (hc : convexCCW l) :
    l.Chain' (· ≠ ·) := by
  rw [List.chain'_iff_get]
  intro i h
  apply convex_ne_succ hc (List.get?_eq_get (by omega))
  have h1 : (i + 1) % l.length = i + 1 := Nat.mod_eq_of_lt (by omega)
  rw [h1]
  exact List.get?_eq_get (by omega)

theorem convex_last_ne_head {l : List P} (hc : convexCCW l)
    (h2 : 2 ≤ l.length) :
    ∀ a b, l.head? = some a → l.getLast? = some b → b ≠ a := by
  intro a b ha hb
  have hv : l.get? (l.length - 1) = some b := by
    rw [← List.getLast?_eq_get?]; exact hb
  have hs : l.get? ((l.length - 1 + 1) % l.length) = some a := by
    have h1 : (l.length - 1 + 1) % l.length = 0 := by
      have h0 : l.length - 1 + 1 = l.length := by omega
      rw [h0, Nat.mod_self]
    rw [h1, List.get?_zero]
    exact ha
  exact convex_ne_succ hc hv hs

theorem collapseAdj_eq_self {l : List P} (h : l.Chain' (· ≠ ·)) :
    collapseAdj l = l := by
  induction l with
  | nil => rfl
  | cons a t ih =>
    cases t with
    | nil => rfl
    | cons b t' =>
      rw [List.chain'_cons] at h
      show collapseAdj (a :: b :: t') = a :: b :: t'
      simp only [collapseAdj]
      rw [if_neg h.1, ih h.2]

theorem collapseRing_eq_self {l : List P} (h : l.Chain' (· ≠ ·))
    (hlh : ∀ a b, l.head? = some a → l.getLast? = some b → b ≠ a) :
    collapseRing l = l := by
  have h2 : collapseAdj l = l := collapseAdj_eq_self h
  unfold collapseRing
  simp only [h2]
  cases hh : l.head? with
  | none => rfl
  | some a =>
    cases hg : l.getLast? with
    | none => rfl
    | some b =>
      simp only []
      rw [if_neg]
      rintro ⟨hlen, hba⟩
      exact hlh a b hh hg hba

end GoTriangulate

namespace GoTriangulate

variable {P : Type} [PointRef P] [DecidableEq P]

/-! ### The sweep adds no diagonal over a strictly convex loop

Every vertex of a strictly convex counter-clockwise loop classifies as
Start, End or Regular, so the sweep's status structure never stores a
Merge helper and no diagonal is ever emitted. -/

theorem classify_ne_split_merge {t : Vtx P × Vtx P × Vtx P}
    (h : 0 < signedArea t.1.2 t.2.1.2 t.2.2.2) :
    classify t ≠ VClass.split ∧ classify t ≠ VClass.merge := by
  unfold classify
  simp only []
  rw [if_pos h, if_pos h]
  refine ⟨?_, ?_⟩ <;>
  · split
    · simp
    · split
      · simp
      · split <;> simp

theorem sweepStep_nomerge {st : SweepState P} {t : Vtx P × Vtx P × Vtx P}
    (hs : ∀ ee ∈ st.status, ee.hcls ≠ VClass.merge)
    (hd : st.diags = [])
    (hc1 : classify t ≠ VClass.split) (hc2 : classify t ≠ VClass.merge) :
    (∀ ee ∈ (sweepStep st t).status, ee.hcls ≠ VClass.merge) ∧
      (sweepStep st t).diags = [] := by
  unfold sweepStep
  simp only []
  cases hcl : classify t with
  | split => exact absurd hcl hc1
  | merge => exact absurd hcl hc2
  | start =>
    refine ⟨?_, hd⟩
    intro ee hee
    rcases List.mem_append.mp hee with h2 | h2
    · exact hs ee h2
    · rw [List.mem_singleton] at h2; subst h2; simp
  | stop =>
    refine ⟨fun ee hee => hs ee (removeEdge_mem hee), ?_⟩
    rw [hd]
    cases hf : findEdge st.status t.1.1 t.2.1.1 with
    | none => simp
    | some e2 =>
      have hdt : diagTo t.2.1 e2 = [] := by
        unfold diagTo
        rw [if_neg (hs e2 (findEdge_mem hf))]
      simp [hdt]
  | regRight =>
    constructor
    · intro ee hee
      rcases List.mem_append.mp hee with h2 | h2
      · exact hs ee (removeEdge_mem h2)
      · rw [List.mem_singleton] at h2; subst h2; simp
    · rw [hd]
      cases hf : findEdge st.status t.1.1 t.2.1.1 with
      | none => simp
      | some e2 =>
        have hdt : diagTo t.2.1 e2 = [] := by
          unfold diagTo
          rw [if_neg (hs e2 (findEdge_mem hf))]
        simp [hdt]
  | regLeft =>
    cases he : edgeLeft st.status t.2.1 with
    | none => exact ⟨hs, hd⟩
    | some e2 =>
      simp only []
      have hdt : diagTo t.2.1 e2 = [] := by
        unfold diagTo
        rw [if_neg (hs e2 (edgeLeft_mem he))]
      refine ⟨?_, by rw [hd, hdt]; rfl⟩
      intro ee hee
      unfold setHelper at hee
      obtain ⟨y, hy, heq⟩ := List.mem_map.mp hee
      split at heq <;> subst heq
      · simp
      · exact hs y hy

theorem sweep_fold_nomerge :
    ∀ (evs : List (Vtx P × Vtx P × Vtx P)) (st : SweepState P),
      (∀ ee ∈ st.status, ee.hcls ≠ VClass.merge) →
      st.diags = [] →
      (∀ t ∈ evs, classify t ≠ VClass.split ∧ classify t ≠ VClass.merge) →
      (evs.foldl sweepStep st).diags = [] := by
  intro evs
  induction evs with
  | nil => intro st _ hd _; exact hd
  | cons t evt ih =>
    intro st hs hd hts
    have ht := hts t (List.mem_cons_self ..)
    have hstep := sweepStep_nomerge hs hd ht.1 ht.2
    exact ih (sweepStep st t) hstep.1 hstep.2
      (fun q hq => hts q (List.mem_cons_of_mem _ hq))

theorem sweepDiags_nil {e : List (Vtx P)}
    (hc : ∀ t ∈ cyclicTriples e, 0 < signedArea t.1.2 t.2.1.2 t.2.2.2) :
    sweepDiags e = [] := by
  unfold sweepDiags
  simp only []
  apply sweep_fold_nomerge _ _ (by simp) rfl
  intro t hts
  have hmem := (List.Perm.mem_iff (List.perm_insertionSort _ _)).mp hts
  exact classify_ne_split_merge (hc t hmem)

theorem convex_enum_triples {l : List P} (hc : convexCCW l) :
    ∀ t ∈ cyclicTriples l.enum, 0 < signedArea t.1.2 t.2.1.2 t.2.2.2 := by
  intro t ht
  have hmap : cyclicTriples l = (cyclicTriples l.enum).map
      (fun t => (t.1.2, t.2.1.2, t.2.2.2)) := by
    conv_lhs => rw [← List.enum_map_snd l]
    rw [cyclicTriples_map]
  have hmem : (t.1.2, t.2.1.2, t.2.2.2) ∈ cyclicTriples l := by
    rw [hmap]
    exact List.mem_map_of_mem _ ht
  exact hc _ hmem

end GoTriangulate

namespace GoTriangulate

variable {P : Type} [PointRef P] [DecidableEq P]

/-! ### Face extraction over a diagonal-free loop

With no diagonals, every interior vertex of the subdivision has exactly two
neighbors (its ring predecessor and successor), so the half-edge walk
starting at a forward half-edge traces the whole loop once, the walk
starting at a backward half-edge traces it once in reverse, and no further
face exists.  The reversed face has negative shoelace sum and is discarded
as the outer face. -/

theorem getElem_of_get? {α : Type _} {l : List α} {i : ℕ} {a : α}
    (h : l.get? i = some a) (h2 : i < l.length) : l[i] = a := by
  obtain ⟨h3, h4⟩ := List.get?_eq_some.mp h
  rw [← h4]
  exact (List.get_eq_getElem l ⟨i, h3⟩).symm

theorem drop_cons_of_get? {α : Type _} {l : List α} {i : ℕ} {a : α}
    (h : l.get? i = some a) : l.drop i = a :: l.drop (i + 1) := by
  have h2 : i < l.length := (List.get?_eq_some.mp h).1
  rw [List.drop_eq_getElem_cons h2, getElem_of_get? h h2]

theorem buildAdj_nil_get? {e : List (Vtx P)} {i : ℕ} {p v s : Vtx P}
    (hi : i < e.length)
    (hp : e.get? ((i + e.length - 1) % e.length) = some p)
    (hv : e.get? i = some v)
    (hs : e.get? ((i + 1) % e.length) = some s) :
    (buildAdj e []).get? i = some (sortAng (pos v.2) [s, p]) := by
  unfold buildAdj
  rw [List.get?_map, cyclicTriples_get? hi hp hv hs]
  simp [diagPartners]

theorem sortAng_pair (v : ℚ × ℚ) (a b : Vtx P) :
    sortAng v [a, b] = [a, b] ∨ sortAng v [a, b] = [b, a] := by
  unfold sortAng
  simp only [List.insertionSort, List.orderedInsert]
  split
  · left; rfl
  · right; rfl

theorem nextHE_fwd {e : List (Vtx P)}
    (hid : ∀ i x, e.get? i = some x → x.1 = i)
    (h3 : 3 ≤ e.length) {i : ℕ} {x y z : Vtx P}
    (hi : i < e.length)
    (hx : e.get? i = some x)
    (hy : e.get? ((i + 1) % e.length) = some y)
    (hz : e.get? (((i + 1) % e.length + 1) % e.length) = some z) :
    nextHE (buildAdj e []) (x, y) = some (y, z) := by
  have hn0 : 0 < e.length := by omega
  have hj : (i + 1) % e.length < e.length := Nat.mod_lt _ hn0
  have hx1 : x.1 = i := hid _ _ hx
  have hy1 : y.1 = (i + 1) % e.length := hid _ _ hy
  have hz1 : z.1 = ((i + 1) % e.length + 1) % e.length := hid _ _ hz
  have hadj : (buildAdj e []).get? ((i + 1) % e.length) =
      some (sortAng (pos y.2) [z, x]) := by
    apply buildAdj_nil_get? hj _ hy hz
    rw [cyc_succ_pred (by omega) hi]
    exact hx
  have hne : z.1 ≠ x.1 := by
    rw [hz1, hx1]
    exact cyc_succ_succ_ne h3 hi
  have hkey : nextHE (buildAdj e []) (x, y) =
      (match (buildAdj e []).get? y.1 with
      | none => none
      | some out =>
        match out.findIdx? (fun t => t.1 == x.1) with
        | none => none
        | some i0 =>
          match out.get? ((i0 + out.length - 1) % out.length) with
          | none => none
          | some t => some (y, t)) := rfl
  rw [hkey, hy1, hadj]
  have hzx : (z.1 == x.1) = false := beq_eq_false_iff_ne.mpr hne
  have hxx : (x.1 == x.1) = true := beq_self_eq_true _
  rcases sortAng_pair (pos y.2) z x with hso | hso <;> rw [hso] <;>
    simp [List.findIdx?_cons, hzx, hxx]

theorem nextHE_bwd {e : List (Vtx P)}
    (hid : ∀ i x, e.get? i = some x → x.1 = i)
    (h3 : 3 ≤ e.length) {i : ℕ} {x y z : Vtx P}
    (hi : i < e.length)
    (hx : e.get? i = some x)
    (hy : e.get? ((i + e.length - 1) % e.length) = some y)
    (hz : e.get? (((i + e.length - 1) % e.length + e.length - 1) % e.length) =
      some z) :
    nextHE (buildAdj e []) (x, y) = some (y, z) := by
  have hn0 : 0 < e.length := by omega
  have hj : (i + e.length - 1) % e.length < e.length := Nat.mod_lt _ hn0
  have hx1 : x.1 = i := hid _ _ hx
  have hy1 : y.1 = (i + e.length - 1) % e.length := hid _ _ hy
  have hz1 : z.1 =
      ((i + e.length - 1) % e.length + e.length - 1) % e.length := hid _ _ hz
  have hadj : (buildAdj e []).get? ((i + e.length - 1) % e.length) =
      some (sortAng (pos y.2) [x, z]) := by
    apply buildAdj_nil_get? hj hz hy
    rw [cyc_pred_succ (by omega) hi]
    exact hx
  have hne : z.1 ≠ x.1 := by
    rw [hz1, hx1]
    exact cyc_pred_pred_ne h3 hi
  have hzx : (z.1 == x.1) = false := beq_eq_false_iff_ne.mpr hne
  have hxx : (x.1 == x.1) = true := beq_self_eq_true _
  have hkey : nextHE (buildAdj e []) (x, y) =
      (match (buildAdj e []).get? y.1 with
      | none => none
      | some out =>
        match out.findIdx? (fun t => t.1 == x.1) with
        | none => none
        | some i0 =>
          match out.get? ((i0 + out.length - 1) % out.length) with
          | none => none
          | some t => some (y, t)) := rfl
  rw [hkey, hy1, hadj]
  rcases sortAng_pair (pos y.2) x z with hso | hso <;> rw [hso] <;>
    simp [List.findIdx?_cons, hzx, hxx]

end GoTriangulate

namespace GoTriangulate

variable {P : Type} [PointRef P] [DecidableEq P]

theorem walkFace_fwd {e : List (Vtx P)}
    (hid : ∀ i x, e.get? i = some x → x.1 = i)
    (h3 : 3 ≤ e.length) :
    ∀ (k i fuel : ℕ), i < e.length → e.length - 1 - i = k →
      e.length - i ≤ fuel →
      ∀ cur hd, (e.zip (e.rotate 1)).get? i = some cur →
        (e.zip (e.rotate 1)).get? 0 = some hd →
        walkFace (buildAdj e []) hd fuel cur = (e.zip (e.rotate 1)).drop i := by
  intro k
  induction k with
  | zero =>
    intro i fuel hi hk hfuel cur hd hcur hhd
    have hieq : i = e.length - 1 := by omega
    have hcur1 := (List.get?_zip_eq_some _ _ _ _).mp hcur
    have hcur2 : e.get? ((i + 1) % e.length) = some cur.2 := by
      rw [← List.get?_rotate hi]
      exact hcur1.2
    have hlen : (e.zip (e.rotate 1)).length = e.length := by
      simp [List.length_zip]
    have hdrop : (e.zip (e.rotate 1)).drop i = [cur] := by
      rw [drop_cons_of_get? hcur]
      have hend : i + 1 = (e.zip (e.rotate 1)).length := by omega
      rw [hend, List.drop_length]
    rw [hdrop]
    cases fuel with
    | zero => rfl
    | succ f =>
      have hhd1 := (List.get?_zip_eq_some _ _ _ _).mp hhd
      have hhd2 : e.get? ((0 + 1) % e.length) = some hd.2 := by
        rw [← List.get?_rotate (by omega)]
        exact hhd1.2
      have hiz : (i + 1) % e.length = 0 := by
        rw [show i + 1 = e.length by omega, Nat.mod_self]
      have hcz : cur.2 = hd.1 := by
        have h1 : e.get? 0 = some cur.2 := by rw [← hiz]; exact hcur2
        exact (Option.some.inj (hhd1.1.symm.trans h1)).symm
      have hnx : nextHE (buildAdj e []) (cur.1, cur.2) = some (cur.2, hd.2) := by
        apply nextHE_fwd hid h3 hi hcur1.1 hcur2
        rw [hiz]
        exact hhd2
      have hnx' : nextHE (buildAdj e []) cur = some (cur.2, hd.2) := hnx
      unfold walkFace
      rw [hnx']
      simp only []
      have heq : (cur.2, hd.2) = hd := by rw [hcz]
      rw [if_pos heq]
  | succ k ih =>
    intro i fuel hi hk hfuel cur hd hcur hhd
    have hcur1 := (List.get?_zip_eq_some _ _ _ _).mp hcur
    have hcur2 : e.get? ((i + 1) % e.length) = some cur.2 := by
      rw [← List.get?_rotate hi]
      exact hcur1.2
    have hilt : i + 1 < e.length := by omega
    have hiz : (i + 1) % e.length = i + 1 := Nat.mod_eq_of_lt hilt
    have hzlt : ((i + 1) % e.length + 1) % e.length < e.length :=
      Nat.mod_lt _ (by omega)
    obtain ⟨z, hz⟩ : ∃ z, e.get? (((i + 1) % e.length + 1) % e.length) = some z :=
      ⟨_, List.get?_eq_get hzlt⟩
    have hnx : nextHE (buildAdj e []) (cur.1, cur.2) = some (cur.2, z) :=
      nextHE_fwd hid h3 hi hcur1.1 hcur2 hz
    have hnxt_get : (e.zip (e.rotate 1)).get? (i + 1) = some (cur.2, z) := by
      apply (List.get?_zip_eq_some _ _ _ _).mpr
      constructor
      · rw [← hiz]
        exact hcur2
      · rw [List.get?_rotate hilt]
        rw [hiz] at hz
        exact hz
    have hhd1 := (List.get?_zip_eq_some _ _ _ _).mp hhd
    have hne : (cur.2, z) ≠ hd := by
      intro hcontra
      have h1 : cur.2.1 = (i + 1) % e.length := hid _ _ hcur2
      have h2 : hd.1.1 = 0 := hid _ _ hhd1.1
      have h4 : cur.2 = hd.1 := congrArg Prod.fst hcontra
      rw [hiz] at h1
      rw [h4, h2] at h1
      omega
    obtain ⟨f, rfl⟩ : ∃ f, fuel = f + 1 := ⟨fuel - 1, by omega⟩
    have hnx' : nextHE (buildAdj e []) cur = some (cur.2, z) := hnx
    unfold walkFace
    rw [hnx']
    simp only []
    rw [if_neg hne]
    rw [ih (i + 1) f hilt (by omega) (by omega) (cur.2, z) hd hnxt_get hhd]
    exact (drop_cons_of_get? hcur).symm

theorem walkFace_bwd {e : List (Vtx P)}
    (hid : ∀ i x, e.get? i = some x → x.1 = i)
    (h3 : 3 ≤ e.length) :
    ∀ (i : ℕ), 1 ≤ i → i < e.length → ∀ (fuel : ℕ), i ≤ fuel →
      ∀ cur b0, (e.zip (e.rotate (e.length - 1))).get? i = some cur →
        (e.zip (e.rotate (e.length - 1))).get? 0 = some b0 →
        walkFace (buildAdj e []) b0 fuel cur =
          (((e.zip (e.rotate (e.length - 1))).drop 1).take i).reverse := by
  intro i
  induction i with
  | zero => intro h1; omega
  | succ i ih =>
    intro h1 hi fuel hfuel cur b0 hcur hb0
    have hcur1 := (List.get?_zip_eq_some _ _ _ _).mp hcur
    have hb01 := (List.get?_zip_eq_some _ _ _ _).mp hb0
    have hcur2 : e.get? ((i + 1 + e.length - 1) % e.length) = some cur.2 := by
      rw [← show (i + 1) + (e.length - 1) = i + 1 + e.length - 1 by omega,
        ← List.get?_rotate hi]
      exact hcur1.2
    have hb02 : e.get? ((0 + e.length - 1) % e.length) = some b0.2 := by
      rw [← show 0 + (e.length - 1) = 0 + e.length - 1 by omega,
        ← List.get?_rotate (by omega : 0 < e.length)]
      exact hb01.2
    have hidx : (i + 1 + e.length - 1) % e.length = i := by
      rw [show i + 1 + e.length - 1 = i + e.length by omega,
        Nat.add_mod_right, Nat.mod_eq_of_lt (by omega)]
    have hzlt : ((i + 1 + e.length - 1) % e.length + e.length - 1) % e.length <
        e.length := Nat.mod_lt _ (by omega)
    obtain ⟨z, hz⟩ : ∃ z, e.get?
        (((i + 1 + e.length - 1) % e.length + e.length - 1) % e.length) =
          some z := ⟨_, List.get?_eq_get hzlt⟩
    have hnx : nextHE (buildAdj e []) (cur.1, cur.2) = some (cur.2, z) :=
      nextHE_bwd hid h3 hi hcur1.1 hcur2 hz
    have hnx' : nextHE (buildAdj e []) cur = some (cur.2, z) := hnx
    obtain ⟨f, rfl⟩ : ∃ f, fuel = f + 1 := ⟨fuel - 1, by omega⟩
    rw [hidx] at hz
    cases Nat.eq_zero_or_pos i with
    | inl hzero =>
      subst hzero
      have hznm1 : (0 + e.length - 1) % e.length = e.length - 1 := by
        rw [show 0 + e.length - 1 = e.length - 1 by omega]
        exact Nat.mod_eq_of_lt (by omega)
      have hcz : cur.2 = b0.1 := by
        rw [hidx] at hcur2
        exact (Option.some.inj (hb01.1.symm.trans hcur2)).symm
      have hzz : z = b0.2 := by
        rw [hznm1] at hb02
        have hz' : e.get? (e.length - 1) = some z := by
          rw [← show (0 + e.length - 1) % e.length = e.length - 1 from hznm1]
          exact hz
        exact Option.some.inj (hz'.symm.trans hb02)
      have heq : (cur.2, z) = b0 := by rw [hcz, hzz]
      unfold walkFace
      rw [hnx']
      simp only []
      rw [if_pos heq]
      have hd1 : ((e.zip (e.rotate (e.length - 1))).drop 1).get? 0 = some cur := by
        rw [List.get?_drop]
        exact hcur
      have hform : (e.zip (e.rotate (e.length - 1))).drop 1 =
          cur :: ((e.zip (e.rotate (e.length - 1))).drop 1).drop 1 := by
        have := drop_cons_of_get? hd1
        rwa [List.drop_zero] at this
      rw [hform]
      simp
    | inr hpos =>
      have hnxt_get : (e.zip (e.rotate (e.length - 1))).get? i = some (cur.2, z) := by
        apply (List.get?_zip_eq_some _ _ _ _).mpr
        constructor
        · rw [hidx] at hcur2
          exact hcur2
        · rw [List.get?_rotate (by omega : i < e.length)]
          rw [show i + (e.length - 1) = i + e.length - 1 by omega]
          exact hz
      have hne : (cur.2, z) ≠ b0 := by
        intro hcontra
        have hc1 : cur.2.1 = (i + 1 + e.length - 1) % e.length := hid _ _ hcur2
        have hc2 : b0.1.1 = 0 := hid _ _ hb01.1
        have h4 : cur.2 = b0.1 := congrArg Prod.fst hcontra
        rw [hidx] at hc1
        rw [h4, hc2] at hc1
        omega
      unfold walkFace
      rw [hnx']
      simp only []
      rw [if_neg hne]
      rw [ih hpos (by omega) f (by omega) (cur.2, z) b0 hnxt_get hb0]
      have htake : ((e.zip (e.rotate (e.length - 1))).drop 1).take (i + 1) =
          ((e.zip (e.rotate (e.length - 1))).drop 1).take i ++ [cur] := by
        rw [List.take_succ]
        have hd1 : ((e.zip (e.rotate (e.length - 1))).drop 1).get? i = some cur := by
          rw [List.get?_drop, Nat.add_comm 1 i]
          exact hcur
        rw [← List.get?_eq_getElem?, hd1]
        rfl
      rw [htake, List.reverse_append]
      rfl

end GoTriangulate

namespace GoTriangulate

variable {P : Type} [PointRef P] [DecidableEq P]

theorem facesGo_skip {adj : List (List (Vtx P))} {fuel : ℕ} :
    ∀ (xs ys : List (HEdge P)) (used : List (ℕ × ℕ)),
      (∀ h ∈ xs, heKey h ∈ used) →
      facesGo adj fuel used (xs ++ ys) = facesGo adj fuel used ys := by
  intro xs
  induction xs with
  | nil => intro ys used _; rfl
  | cons h xs ih =>
    intro ys used hall
    rw [List.cons_append]
    simp only [facesGo]
    rw [if_pos (hall h (List.mem_cons_self ..))]
    exact ih ys used fun q hq => hall q (List.mem_cons_of_mem _ hq)

theorem hes_fwd_eq (e : List (Vtx P)) :
    (cyclicTriples e).map (fun t => (t.2.1, t.2.2)) = e.zip (e.rotate 1) :=
  zip3_proj23 _ _ _ (by simp) (by simp)

theorem hes_bwd_eq (e : List (Vtx P)) :
    (cyclicTriples e).map (fun t => (t.2.1, t.1)) =
      e.zip (e.rotate (e.length - 1)) :=
  zip3_proj21 _ _ _ (by simp) (by simp)

theorem facesGo_run {e : List (Vtx P)}
    (hid : ∀ i x, e.get? i = some x → x.1 = i)
    (h3 : 3 ≤ e.length) {fuel : ℕ} (hfuel : e.length ≤ fuel) :
    facesGo (buildAdj e []) fuel []
        (e.zip (e.rotate 1) ++ e.zip (e.rotate (e.length - 1))) =
      [e, (e.rotate 1).reverse] := by
  have hn0 : 0 < e.length := by omega
  have hlenA : (e.zip (e.rotate 1)).length = e.length := by
    simp [List.length_zip]
  have hlenB : (e.zip (e.rotate (e.length - 1))).length = e.length := by
    simp [List.length_zip]
  have hAne : e.zip (e.rotate 1) ≠ [] := by
    intro h
    rw [h] at hlenA
    simp at hlenA
    omega
  obtain ⟨hd, ftl, hA⟩ := List.exists_cons_of_ne_nil hAne
  have hhd0 : (e.zip (e.rotate 1)).get? 0 = some hd := by rw [hA]; rfl
  have hBne : e.zip (e.rotate (e.length - 1)) ≠ [] := by
    intro h
    rw [h] at hlenB
    simp at hlenB
    omega
  obtain ⟨b0, btl, hB⟩ := List.exists_cons_of_ne_nil hBne
  have hb00 : (e.zip (e.rotate (e.length - 1))).get? 0 = some b0 := by
    rw [hB]; rfl
  have hwalk1 : walkFace (buildAdj e []) hd fuel hd = e.zip (e.rotate 1) := by
    have hw := walkFace_fwd hid h3 (e.length - 1) 0 fuel (by omega) (by omega)
      (by omega) hd hd hhd0 hhd0
    rwa [List.drop_zero] at hw
  have hb01 := (List.get?_zip_eq_some _ _ _ _).mp hb00
  have hb02 : e.get? (e.length - 1) = some b0.2 := by
    have h1 : (e.rotate (e.length - 1)).get? 0 = some b0.2 := hb01.2
    rw [List.get?_rotate hn0] at h1
    rwa [show (0 + (e.length - 1)) % e.length = e.length - 1 by
      rw [Nat.zero_add]
      exact Nat.mod_eq_of_lt (by omega)] at h1
  have hzlt : e.length - 2 < e.length := by omega
  obtain ⟨z, hz⟩ : ∃ z, e.get? (e.length - 2) = some z :=
    ⟨_, List.get?_eq_get hzlt⟩
  have hidx0 : (0 + e.length - 1) % e.length = e.length - 1 := by
    rw [show 0 + e.length - 1 = e.length - 1 by omega]
    exact Nat.mod_eq_of_lt (by omega)
  have hy' : e.get? ((0 + e.length - 1) % e.length) = some b0.2 := by
    rw [hidx0]
    exact hb02
  have hz' : e.get?
      (((0 + e.length - 1) % e.length + e.length - 1) % e.length) = some z := by
    have hidx : ((0 + e.length - 1) % e.length + e.length - 1) % e.length =
        e.length - 2 := by
      rw [hidx0, show e.length - 1 + e.length - 1 = (e.length - 2) + e.length by
        omega, Nat.add_mod_right]
      exact Nat.mod_eq_of_lt (by omega)
    rw [hidx]
    exact hz
  have hnxb : nextHE (buildAdj e []) (b0.1, b0.2) = some (b0.2, z) :=
    nextHE_bwd hid h3 hn0 hb01.1 hy' hz'
  have hnxb' : nextHE (buildAdj e []) b0 = some (b0.2, z) := hnxb
  have hnxt_get : (e.zip (e.rotate (e.length - 1))).get? (e.length - 1) =
      some (b0.2, z) := by
    apply (List.get?_zip_eq_some _ _ _ _).mpr
    constructor
    · exact hb02
    · rw [List.get?_rotate (by omega)]
      rwa [show (e.length - 1 + (e.length - 1)) % e.length = e.length - 2 by
        rw [show e.length - 1 + (e.length - 1) = (e.length - 2) + e.length by
          omega, Nat.add_mod_right]
        exact Nat.mod_eq_of_lt (by omega)]
  have hneq : (b0.2, z) ≠ b0 := by
    intro hcontra
    have h1 : b0.2.1 = e.length - 1 := hid _ _ hb02
    have h2 : b0.1.1 = 0 := hid _ _ hb01.1
    have h4 : b0.2 = b0.1 := congrArg Prod.fst hcontra
    rw [h4, h2] at h1
    omega
  obtain ⟨f, hf⟩ : ∃ f, fuel = f + 1 := ⟨fuel - 1, by omega⟩
  have hwalk2 : walkFace (buildAdj e []) b0 fuel b0 = b0 :: btl.reverse := by
    rw [hf]
    unfold walkFace
    rw [hnxb']
    simp only []
    rw [if_neg hneq]
    rw [walkFace_bwd hid h3 (e.length - 1) (by omega) (by omega) f (by omega)
      (b0.2, z) b0 hnxt_get hb00]
    congr 1
    have hdrop1 : (e.zip (e.rotate (e.length - 1))).drop 1 = btl := by
      rw [hB]; rfl
    rw [hdrop1]
    have hbtl_len : btl.length = e.length - 1 := by
      have hl : (e.zip (e.rotate (e.length - 1))).length = btl.length + 1 := by
        rw [hB]; rfl
      omega
    rw [List.take_of_length_le (by omega)]
  have hkey_b0 : heKey b0 ∉ (e.zip (e.rotate 1)).map heKey := by
    intro hmem
    obtain ⟨q, hq, hqe⟩ := List.mem_map.mp hmem
    obtain ⟨j, hj⟩ := List.mem_iff_get?.mp hq
    have hq1 := (List.get?_zip_eq_some _ _ _ _).mp hj
    have hjlt : j < e.length := (List.get?_eq_some.mp hq1.1).1
    have hq2 : e.get? ((j + 1) % e.length) = some q.2 := by
      rw [← List.get?_rotate hjlt]
      exact hq1.2
    have hqa : q.1.1 = j := hid _ _ hq1.1
    have hqb : q.2.1 = (j + 1) % e.length := hid _ _ hq2
    have hb1 : b0.1.1 = 0 := hid _ _ hb01.1
    have hb2 : b0.2.1 = e.length - 1 := hid _ _ hb02
    unfold heKey at hqe
    rw [Prod.mk.injEq] at hqe
    obtain ⟨he1, he2⟩ := hqe
    rw [hqa, hb1] at he1
    rw [hqb, hb2] at he2
    subst he1
    rw [Nat.mod_eq_of_lt (by omega : 0 + 1 < e.length)] at he2
    omega
  have hface1 : (e.zip (e.rotate 1)).map (fun q => q.1) = e :=
    List.map_fst_zip e (e.rotate 1) (by simp)
  have hface2 : (b0 :: btl.reverse).map (fun q => q.1) = (e.rotate 1).reverse := by
    have hBmap : (e.zip (e.rotate (e.length - 1))).map (fun q => q.1) = e :=
      List.map_fst_zip e _ (by simp)
    rw [hB] at hBmap
    simp only [List.map_cons] at hBmap
    rw [List.map_cons, List.map_reverse]
    rw [← hBmap, List.rotate_cons_succ, List.rotate_zero, List.reverse_append]
    simp
  rw [hA, List.cons_append]
  simp only [facesGo]
  rw [if_neg (List.not_mem_nil _)]
  rw [hwalk1, List.nil_append, hface1]
  congr 1
  rw [facesGo_skip ftl (e.zip (e.rotate (e.length - 1)))
    ((e.zip (e.rotate 1)).map heKey)
    (fun h hh => List.mem_map_of_mem _ (by rw [hA]; exact List.mem_cons_of_mem _ hh))]
  rw [hB]
  simp only [facesGo]
  rw [if_neg hkey_b0]
  rw [hwalk2, hface2]
  congr 1
  have hskip2 : ∀ h ∈ btl, heKey h ∈
      ((e.zip (e.rotate 1)).map heKey ++ (b0 :: btl.reverse).map heKey) := by
    intro h hh
    apply List.mem_append.mpr
    right
    exact List.mem_map_of_mem _ (List.mem_cons_of_mem _ (List.mem_reverse.mpr hh))
  calc facesGo (buildAdj e []) fuel
        ((e.zip (e.rotate 1)).map heKey ++ (b0 :: btl.reverse).map heKey) btl
      = facesGo (buildAdj e []) fuel
        ((e.zip (e.rotate 1)).map heKey ++ (b0 :: btl.reverse).map heKey)
        (btl ++ []) := by rw [List.append_nil]
    _ = facesGo (buildAdj e []) fuel
        ((e.zip (e.rotate 1)).map heKey ++ (b0 :: btl.reverse).map heKey) [] :=
        facesGo_skip btl [] _ hskip2
    _ = [] := rfl

end GoTriangulate

namespace GoTriangulate

variable {P : Type} [PointRef P] [DecidableEq P]

theorem extractFaces_nodiag {e : List (Vtx P)}
    (hid : ∀ i x, e.get? i = some x → x.1 = i)
    (h3 : 3 ≤ e.length) (hpos : 0 < shoelace e) :
    extractFaces e [] = [e] := by
  unfold extractFaces
  simp only [List.flatMap_nil, List.append_nil]
  rw [hes_fwd_eq, hes_bwd_eq]
  rw [facesGo_run hid h3 (by
    simp [List.length_append, List.length_zip]
    omega)]
  have h1 : decide (0 < shoelace e) = true := decide_eq_true hpos
  have h2 : decide (0 < shoelace ((e.rotate 1).reverse)) = false := by
    rw [shoelace_reverse, shoelace_rotate1]
    exact decide_eq_false (by linarith)
  simp [List.filter, h1, h2]

end GoTriangulate

namespace GoTriangulate

variable {P : Type} [PointRef P] [DecidableEq P]

/-! ### Triangle counting for one monotone face

The stack scan grows the output-plus-stack size by exactly one triangle per
scanned vertex, independently of the turn tests, so a single monotone face
with `n` vertices always yields `n - 2` triangles. -/

theorem emitAll_length (v : Vtx P) (l : List (Vtx P)) :
    (emitAll v l).length = l.length - 1 := by
  induction l with
  | nil => rfl
  | cons a t ih =>
    cases t with
    | nil => rfl
    | cons b t' =>
      simp only [emitAll, List.length_cons] at *
      omega

theorem popSame_counts (v : Vtx P) (right : Bool) :
    ∀ (u : TV P) (t : List (TV P)),
      (popSame v right u t).1.length + (popSame v right u t).2.2.length =
        t.length := by
  intro u t
  induction t generalizing u with
  | nil => rfl
  | cons w t' ih =>
    unfold popSame
    simp only []
    split
    all_goals split
    all_goals first
      | (simp only [List.length_cons]; have := ih w; omega)
      | simp

theorem mergeTV_length :
    ∀ (fuel : ℕ) (a b : List (TV P)),
      (mergeTV fuel a b).length = a.length + b.length := by
  intro fuel
  induction fuel with
  | zero => intro a b; simp [mergeTV]
  | succ f ih =>
    intro a b
    cases a with
    | nil => simp [mergeTV]
    | cons x as =>
      cases b with
      | nil => simp [mergeTV]
      | cons y bs =>
        simp only [mergeTV]
        split
        · simp only [List.length_cons, ih]; omega
        · simp only [List.length_cons, ih]; omega

theorem chainsOf_length (f : List (Vtx P)) : (chainsOf f).length = f.length := by
  unfold chainsOf
  simp only []
  rw [mergeTV_length]
  simp [List.length_take, List.length_drop]
  omega

theorem stackStep_counts {stack : List (TV P)} {acc : List (Tri P)} {v : TV P}
    (h1 : 1 ≤ stack.length) :
    2 ≤ (stackStep stack acc v).1.length ∧
      (stackStep stack acc v).2.length + (stackStep stack acc v).1.length =
        acc.length + stack.length + 1 := by
  unfold stackStep
  cases stack with
  | nil => simp at h1
  | cons top rest =>
    simp only []
    split
    · constructor
      · simp
      · simp only [List.length_append, List.length_cons, List.length_nil]
        rw [emitAll_length]
        simp only [List.length_map, List.length_cons]
        omega
    · constructor
      · simp
      · simp only [List.length_cons, List.length_append, List.length_nil]
        have := popSame_counts v.v v.right top rest
        omega

theorem runStack_count :
    ∀ (l stack : List (TV P)) (acc : List (Tri P)),
      1 ≤ stack.length → 1 ≤ l.length →
      (runStack stack acc l).length =
        acc.length + stack.length + l.length - 2 := by
  intro l
  induction l with
  | nil => intro stack acc h1 h2; simp at h2
  | cons v l' ih =>
    intro stack acc h1 h2
    cases l' with
    | nil =>
      show (acc ++ emitAll v.v (stack.map (fun q => q.v))).length = _
      rw [List.length_append, emitAll_length]
      simp
      omega
    | cons w t =>
      show (runStack (stackStep stack acc v).1 (stackStep stack acc v).2
        (w :: t)).length = _
      have hc := @stackStep_counts P _ _ stack acc v h1
      rw [ih (stackStep stack acc v).1 (stackStep stack acc v).2 (by omega)
        (by simp)]
      simp only [List.length_cons, List.length_nil] at *
      omega

theorem triangulateMonotone_count {f : List (Vtx P)} (h3 : 3 ≤ f.length) :
    (triangulateMonotone f).length = f.length - 2 := by
  have hch : (chainsOf f).length = f.length := chainsOf_length f
  cases hc : chainsOf f with
  | nil => rw [hc] at hch; simp at hch; omega
  | cons a tl =>
    cases htl : tl with
    | nil =>
      rw [hc, htl] at hch
      simp at hch
      omega
    | cons b t =>
      subst htl
      unfold triangulateMonotone
      rw [hc]
      simp only []
      rw [hc] at hch
      simp only [List.length_cons] at hch
      rw [runStack_count t [b, a] [] (by simp) (by omega)]
      simp
      omega

theorem triangulateLoop_convex {l : List P} (h3 : 3 ≤ l.length)
    (hc : convexCCW l) (hpos : 0 < shoelace l) :
    (triangulateLoop l).length = l.length - 2 := by
  unfold triangulateLoop
  simp only []
  have hid : ∀ i x, l.enum.get? i = some x → x.1 = i := by
    intro i x hx
    rw [List.get?_enum] at hx
    cases hgx : l.get? i with
    | none => rw [hgx] at hx; simp at hx
    | some a =>
      rw [hgx] at hx
      simp only [Option.map_some'] at hx
      injection hx with hx2
      rw [← hx2]
  have henlen : l.enum.length = l.length := List.enum_length
  have hdiag : sweepDiags l.enum = [] := sweepDiags_nil (convex_enum_triples hc)
  rw [hdiag]
  have hposE : 0 < shoelace l.enum := by
    rw [shoelace_map_snd, List.enum_map_snd]
    exact hpos
  rw [extractFaces_nodiag hid (by omega) hposE]
  simp only [List.flatMap_cons, List.flatMap_nil, List.append_nil]
  rw [triangulateMonotone_count (by omega)]
  omega

end GoTriangulate

namespace GoTriangulate

variable {P : Type} [PointRef P] [DecidableEq P]

theorem normalize_single {r : List P} (hnd : ringDegenerate r = false)
    (hcr : collapseRing r = r) :
    normalize [r] = .ok [⟨if ringArea r < 0 then r.reverse else r, []⟩] := by
  unfold normalize
  have hany : [r].any ringDegenerate = false := by simp [hnd]
  rw [hany]
  simp only [Bool.false_eq_true, if_false, List.map_cons, List.map_nil, hcr]
  simp

theorem triangulate_single {r : List P} (hnd : ringDegenerate r = false)
    (hcr : collapseRing r = r) :
    Triangulate [r] =
      (triangulateLoop (if ringArea r < 0 then r.reverse else r), none) := by
  have hcg : collectGroups
      [(⟨if ringArea r < 0 then r.reverse else r, []⟩ : Group P)] =
      .ok (triangulateLoop (if ringArea r < 0 then r.reverse else r) ++ []) :=
    rfl
  rw [List.append_nil] at hcg
  unfold Triangulate
  rw [normalize_single hnd hcr]
  simp only []
  rw [hcg]

/-- **C2** (amended).  The claim as stated is false: a strictly convex
triangle of area `5·10⁻¹³` is rejected as a degenerate ring (see the
counterexample below).  Amended claim: for a single ring `r` with at least
3 vertices and no holes that is strictly convex — all cyclic triples of
consecutive vertices turn the same way — and whose ring area clears the
`1e-12` degeneracy epsilon, `Triangulate [r]` succeeds and returns exactly
`r.length - 2` triangles. -/
theorem triangulate_convex_count (r : List P) (h3 : 3 ≤ r.length)
    (hc : (convexCCW r ∧ epsArea ≤ ringArea r) ∨
      (convexCCW r.reverse ∧ ringArea r ≤ -epsArea)) :
    (Triangulate [r]).2 = none ∧
      (Triangulate [r]).1.length = r.length - 2 := by
  have heps : (0 : ℚ) < epsArea := by norm_num [epsArea]
  have hnd : ringDegenerate r = false := by
    cases hb : ringDegenerate r
    · rfl
    · exfalso
      rcases (ringDegenerate_iff r).mp hb with h | h
      · omega
      · rw [abs_lt] at h
        rcases hc with ⟨_, h2⟩ | ⟨_, h2⟩
        · linarith [h.2]
        · linarith [h.1]
  rcases hc with ⟨hcv, harea⟩ | ⟨hcv, harea⟩
  · have hcr : collapseRing r = r :=
      collapseRing_eq_self (convex_chain_ne hcv)
        (convex_last_ne_head hcv (by omega))
    have hts := triangulate_single hnd hcr
    have hif : (if ringArea r < 0 then r.reverse else r) = r :=
      if_neg (by linarith)
    rw [hif] at hts
    rw [hts]
    refine ⟨rfl, ?_⟩
    apply triangulateLoop_convex h3 hcv
    unfold ringArea at harea
    linarith
  · have hch : r.Chain' (· ≠ ·) := by
      have h1 := convex_chain_ne hcv
      rw [List.chain'_reverse] at h1
      exact h1.imp (fun a b hab => Ne.symm hab)
    have hlh : ∀ a b, r.head? = some a → r.getLast? = some b → b ≠ a := by
      intro a b ha hb
      have ha' : r.reverse.getLast? = some a := by
        rw [List.getLast?_reverse]; exact ha
      have hb' : r.reverse.head? = some b := by
        rw [List.head?_reverse]; exact hb
      exact (convex_last_ne_head hcv (by simp; omega) b a hb' ha').symm
    have hcr : collapseRing r = r := collapseRing_eq_self hch hlh
    have hts := triangulate_single hnd hcr
    have hif : (if ringArea r < 0 then r.reverse else r) = r.reverse :=
      if_pos (by linarith)
    rw [hif] at hts
    rw [hts]
    refine ⟨rfl, ?_⟩
    have hlen : r.reverse.length = r.length := by simp
    have hcount := triangulateLoop_convex (l := r.reverse) (by omega) hcv (by
      rw [shoelace_reverse]
      unfold ringArea at harea
      linarith)
    rw [hcount, hlen]

/-- **C2**, counterexample to the claim as stated: `tinyTri` is a strictly
convex counter-clockwise triangle (n = 3), yet `Triangulate` rejects it as
a degenerate ring because its area `5·10⁻¹³` falls below the `1e-12`
epsilon, so it returns `0 ≠ n - 2 = 1` triangles. -/
theorem triangulate_convex_count_cex :
    convexCCW tinyTri ∧ 3 ≤ tinyTri.length ∧
      (Triangulate [tinyTri]).2 = some TriErr.DegenerateRing ∧
      (Triangulate [tinyTri]).1.length ≠ tinyTri.length - 2 := by
  with_unfolding_all decide

/-- Witness for the amended C2 at the concrete unit square `c9square`. -/
theorem triangulate_convex_count_witness :
    (3 ≤ c9square.length ∧
      ((convexCCW c9square ∧ epsArea ≤ ringArea c9square) ∨
        (convexCCW c9square.reverse ∧ ringArea c9square ≤ -epsArea))) ∧
      ((Triangulate [c9square]).2 = none ∧
        (Triangulate [c9square]).1.length = c9square.length - 2) :=
  ⟨⟨by with_unfolding_all decide,
    Or.inl ⟨by with_unfolding_all decide, by with_unfolding_all decide⟩⟩,
   triangulate_convex_count c9square (by with_unfolding_all decide)
     (Or.inl ⟨by with_unfolding_all decide, by with_unfolding_all decide⟩)⟩

end GoTriangulate
